import Mathlib

/-!
Verification of the RustPython `range` / `array` / class-machinery sources.

Shallow embedding conventions:
* `malachite_bigint::BigInt` is embedded as `Int` (arbitrary precision in both).
* `usize` is embedded as `Nat` with explicit `% 2 ^ 64` where the source wraps
  (`AtomicCell::fetch_add` wraps), and `isize` as `Int` together with the
  predicate `fitsIsize`.  Conversions `to_isize` / `to_usize` are embedded as
  the partial functions below.
* Rust `BigInt` division in the source only occurs with nonnegative numerator
  and positive denominator (or with an exact divisibility check), where
  truncating division agrees with Lean's `Int` division.
-/

namespace RustPython

namespace Range

/-- `PyRange` (src/vm/src/builtins/range.rs): three arbitrary-precision
integers; `step ≠ 0` is enforced at construction. -/
structure PyRange where
  start : Int
  stop : Int
  step : Int
deriving DecidableEq, Repr

/-- `PyRange::compute_length`.  The source matches on `step.sign()`; the
`Sign::NoSign` arm is `unreachable!()` (construction rejects `step == 0`), so
this embedding only ever runs with `step ≠ 0`.  The divisions have nonnegative
numerator and positive denominator, so Rust's truncating `BigInt` division
agrees with Lean's `/`. -/
def computeLength (r : PyRange) : Int :=
  if 0 < r.step ∧ r.start < r.stop then
    if r.step = 1 then r.stop - r.start
    else (r.stop - r.start - 1) / r.step + 1
  else if r.step < 0 ∧ r.stop < r.start then
    (r.start - r.stop - 1) / (-r.step) + 1
  else 0

example : computeLength ⟨0, 10, 3⟩ = 4 := by decide
example : computeLength ⟨0, 10, 1⟩ = 10 := by decide
example : computeLength ⟨10, 0, -3⟩ = 4 := by decide
example : computeLength ⟨5, 5, 7⟩ = 0 := by decide
example : ((-7 : Int) / (2 : Int)) = -4 := by decide

/-- The equality test of `Comparable for PyRange::cmp` (the `op.eq_only`
body, after the `zelf.is(other)` identity shortcut, which agrees with it on
identical ranges, and the `class_or_notimplemented!` downcast, which is the
"both operands are ranges" hypothesis of the claim). -/
def rangeEq (r1 r2 : PyRange) : Bool :=
  let lhsLen := computeLength r1
  if lhsLen ≠ computeLength r2 then false
  else if lhsLen = 0 then true
  else if r1.start ≠ r2.start then false
  else if lhsLen = 1 then true
  else r1.step = r2.step

/-- The element triple fed to `tuple_hash` by `Hashable for PyRange::hash`:
`(length, none, none)` for empty ranges, `(length, start, none)` for
singletons, `(length, start, step)` otherwise.  `tuple_hash` itself lives
outside the given sources; it is a deterministic function of this triple, so
equal triples hash equal. -/
def hashElements (r : PyRange) : Int × Option Int × Option Int :=
  let length := computeLength r
  if length = 0 then (length, none, none)
  else if length = 1 then (length, some r.start, none)
  else (length, some r.start, some r.step)

/-- The effective element sequence of a range: `start + k*step` for
`k ∈ [0, length)`.  This is the sequence produced by iterating the range (see
the iterator embedding below). -/
def rangeElements (r : PyRange) : List Int :=
  (List.range (computeLength r).toNat).map fun k : Nat => r.start + (k : Int) * r.step

/-- `PyRange::offset` (match on `step.sign()`). -/
def offset (r : PyRange) (v : Int) : Option Int :=
  if 0 < r.step then
    if r.start ≤ v ∧ v < r.stop then some (v - r.start) else none
  else if r.step < 0 then
    if v ≤ r.start ∧ r.stop < v then some (r.start - v) else none
  else none

/-- `PyRange::index_of`.  `offset.is_multiple_of(step)` is divisibility by
`step` (sign-insensitive), and the division `(offset / step)` is exact there,
so Rust's truncating division agrees with Lean's `/`. -/
def indexOf (r : PyRange) (v : Int) : Option Int :=
  match offset r v with
  | some o => if r.step ∣ o then some |o / r.step| else none
  | none => none

/-! ### Iterators

`PyRangeIterator` (fixed-width) stores `isize` start/step and a `usize`
length; `PyLongRangeIterator` stores `BigInt`s with a `usize` cursor.  Both
cursors are advanced with `AtomicCell::fetch_add(1)`, which wraps modulo
`2 ^ 64`, as the source's own TODO comments note. -/

/-- `usize::MAX + 1`. -/
def usizeMod : Nat := 2 ^ 64

/-- `isize::MIN ≤ x ≤ isize::MAX`, i.e. `BigInt::to_isize` succeeds. -/
def fitsIsize (x : Int) : Prop := -(2 ^ 63) ≤ x ∧ x ≤ 2 ^ 63 - 1

instance (x : Int) : Decidable (fitsIsize x) := by unfold fitsIsize; infer_instance

/-- `BigInt::to_usize`: some iff `0 ≤ x ≤ usize::MAX`. -/
def toUsize (x : Int) : Option Nat :=
  if 0 ≤ x ∧ x ≤ 2 ^ 64 - 1 then some x.toNat else none

/-- Reinterpretation of a value as a (wrapping) `isize`: the representative of
`x` modulo `2 ^ 64` lying in `[-2^63, 2^63)`.  Used both for `index as isize`
(a `usize → isize` bit cast) and for wrapping `isize` arithmetic in release
builds. -/
def wrapIsize (x : Int) : Int := (x + 2 ^ 63) % 2 ^ 64 - 2 ^ 63

/-- `PyLongRangeIterator`: arbitrary-precision start/step/length with a
machine-word cursor. -/
structure PyLongRangeIterator where
  index : Nat
  start : Int
  step : Int
  length : Int
deriving DecidableEq, Repr

/-- `PyRangeIterator`: fixed-width representation; `start`/`step` are `isize`
values, `length` a `usize`. -/
structure PyRangeIterator where
  index : Nat
  start : Int
  step : Int
  length : Nat
deriving DecidableEq, Repr

/-- `IterNext for PyLongRangeIterator::next`: `fetch_add(1)` on the cursor
(wrapping, per the source's TODO comment), yield `start + index*step` while
`index < length`. -/
def longNext (it : PyLongRangeIterator) : Option Int × PyLongRangeIterator :=
  let i := it.index
  let it' := { it with index := (i + 1) % usizeMod }
  if (i : Int) < it.length then (some (it.start + i * it.step), it') else (none, it')

/-- `IterNext for PyRangeIterator::next`: same shape, but the yielded value is
computed in wrapping `isize` arithmetic (`start + (index as isize) * step`). -/
def fixedNext (it : PyRangeIterator) : Option Int × PyRangeIterator :=
  let i := it.index
  let it' := { it with index := (i + 1) % usizeMod }
  if i < it.length then (some (wrapIsize (it.start + wrapIsize i * it.step)), it')
  else (none, it')

/-- The two iterator representations for a range. -/
inductive RangeIter where
  | fixed (it : PyRangeIterator)
  | long (it : PyLongRangeIterator)
deriving DecidableEq, Repr

/-- `Iterable for PyRange::iter`: the fixed-width representation is chosen
exactly when `start`, `step`, `stop` and `start + step` all fit an `isize`;
its length field is `length.to_usize().unwrap_or(0)`. -/
def rangeIter (r : PyRange) : RangeIter :=
  let length := computeLength r
  if fitsIsize r.start ∧ fitsIsize r.step ∧ fitsIsize r.stop ∧ fitsIsize (r.start + r.step) then
    .fixed { index := 0, start := r.start, step := r.step,
             length := (toUsize length).getD 0 }
  else
    .long { index := 0, start := r.start, step := r.step, length }

/-- One step of whichever representation was chosen. -/
def iterNext : RangeIter → Option Int × RangeIter
  | .fixed it => let (v, it') := fixedNext it; (v, .fixed it')
  | .long it => let (v, it') := longNext it; (v, .long it')

/-- Run an iterator, collecting yielded values until the first `none` (or until
the fuel runs out). -/
def runIter {σ : Type} (next : σ → Option Int × σ) : Nat → σ → List Int
  | 0, _ => []
  | fuel + 1, s =>
    match next s with
    | (none, _) => []
    | (some a, s') => a :: runIter next fuel s'

/-- `range_state` (src/vm/src/builtins/range.rs): computes the cursor stored by
`__setstate__` from a saved integer index `i` (the non-integer error case is
omitted).  Mirrors the source exactly: if `i > length` the index becomes
`max(length, usize::MAX)`, and the final `to_usize().unwrap_or(0)` yields 0 for
values outside `[0, usize::MAX]`. -/
def rangeState (length : Int) (i : Int) : Nat :=
  let maxUsize : Int := 2 ^ 64 - 1
  let index := if length < i then max length maxUsize else i
  match toUsize index with
  | some n => n
  | none => 0

/-! ### Membership and index-of -/

/-- The search flag of `iter_search`. -/
inductive SearchType where
  | Count
  | Contains
  | Index

/-- `iter_search`, embedded over the materialized iteration sequence of the
searched object; `eq` is `vm.bool_eq(item, element)` for the probe `item`. -/
def iterSearch (elems : List Int) (eq : Int → Bool) (flag : SearchType) : Except Unit Nat :=
  go elems 0
where
  go : List Int → Nat → Except Unit Nat
    | [], count =>
      match flag with
      | .Count => .ok count
      | .Contains => .ok 0
      | .Index => .error ()
    | e :: rest, count =>
      if eq e then
        match flag with
        | .Index => .ok count
        | .Contains => .ok 1
        | .Count => go rest (count + 1)
      else go rest count

/-- The iteration sequence a range actually produces: run the chosen iterator
representation to exhaustion (length steps suffice when the length fits a
`usize`). -/
def iterToList (r : PyRange) : List Int :=
  runIter iterNext (computeLength r).toNat (rangeIter r)

/-- The probe object of a membership / index-of query.  `exactInt v` is a
genuine `int` of the exact checked kind (its `downcast_ref_if_exact::<PyInt>`
succeeds — "Only accept ints, not subclasses").

Modelled from the spec: `PyObjectRef::downcast::<PyInt>`, used by `index`, is
defined outside the given sources; per the spec's "one integer division when
the probe is a genuine integer of the exact checked kind", it is taken to
succeed exactly on `exactInt` probes as well.  Every other probe is `foreign`,
carrying its generic-equality behaviour `eqInt` against integers
(`vm.bool_eq`). -/
inductive Probe where
  | exactInt (v : Int)
  | foreign (eqInt : Int → Bool)

/-- `Py<PyRange>::contains_inner`: arithmetic path for exact ints, otherwise
`iter_search(.., Contains)` with `unwrap_or(0) != 0`. -/
def containsInner (r : PyRange) (p : Probe) : Bool :=
  match p with
  | .exactInt v =>
    match offset r v with
    | some o => r.step ∣ o
    | none => false
  | .foreign eq =>
    (match iterSearch (iterToList r) eq .Contains with
     | .ok n => n
     | .error _ => 0) ≠ 0

/-- `Py<PyRange>::index`: `index_of` for ints (per the spec-modelled
`downcast`, exact ints), otherwise `iter_search(.., Index)`; the found
`usize` count is re-encoded as a nonnegative `BigInt`. -/
def rangeIndex (r : PyRange) (p : Probe) : Except Unit Int :=
  match p with
  | .exactInt v =>
    match indexOf r v with
    | some idx => .ok idx
    | none => .error ()
  | .foreign eq => (iterSearch (iterToList r) eq .Index).map fun n : Nat => (n : Int)

end Range

namespace Array1

/-! ### `array.array` (src/stdlib/src/array.rs)

`ArrayContentType` is a 13-variant enum of homogeneous `Vec`s; the
`def_array_enum!` macro generates uniform code for every variant, so the
embedding flattens it to an element-kind tag plus one list whose entries are
the elements' bit patterns (each `w`-byte element is its unsigned value
`< 2 ^ (8*w)`; element values only enter/leave through conversions and byte
reinterpretation, both of which act on the patterns).  Platform constants are
those of the compiled 64-bit Linux target: `c_int`/`wchar_t` 4 bytes,
`c_long`/`c_longlong` 8 bytes. -/

/-- The 13 type codes of `def_array_enum!`. -/
inductive TypeCode where
  | sb   -- 'b' SignedByte (i8)
  | ub   -- 'B' UnsignedByte (u8)
  | wch  -- 'u' PyUnicode (WideChar = wchar_t)
  | sh   -- 'h' SignedShort
  | uh   -- 'H' UnsignedShort
  | si   -- 'i' SignedInt
  | ui   -- 'I' UnsignedInt
  | sl   -- 'l' SignedLong
  | ul   -- 'L' UnsignedLong
  | sq   -- 'q' SignedLongLong
  | uq   -- 'Q' UnsignedLongLong
  | f32  -- 'f' Float
  | f64  -- 'd' Double
deriving DecidableEq, Repr

/-- `ArrayContentType::itemsize` (sizes on the 64-bit Linux target). -/
def TypeCode.itemsize : TypeCode → Nat
  | .sb | .ub => 1
  | .sh | .uh => 2
  | .wch | .si | .ui | .f32 => 4
  | .sl | .ul | .sq | .uq | .f64 => 8

/-- The flattened `ArrayContentType`: element kind plus backing elements (as
bit patterns). -/
structure ArrayContentType where
  kind : TypeCode
  data : List Nat
deriving DecidableEq, Repr

/-- Well-formedness: every stored pattern fits the element width. -/
def ArrayContentType.wf (a : ArrayContentType) : Prop :=
  ∀ x ∈ a.data, x < 2 ^ (8 * a.kind.itemsize)

/-- Error conditions surfaced by the embedded operations. -/
inductive Err where
  | resizeConflict   -- mutate while a buffer view is exported
  | convError        -- element conversion failure (type/overflow)
  | typeError
  | valueError
  | indexError
deriving DecidableEq, Repr

/-- Little-endian byte decomposition of a `k`-byte element pattern. -/
def toLEBytes : Nat → Nat → List Nat
  | 0, _ => []
  | k + 1, x => x % 256 :: toLEBytes k (x / 256)

/-- Recomposition of little-endian bytes into an element pattern. -/
def fromLEBytes : List Nat → Nat
  | [] => 0
  | b :: rest => b + 256 * fromLEBytes rest

/-- `ArrayElement::byteswap` for a `k`-byte element: reverse its byte order
(`<int>::swap_bytes`; for floats `from_bits(to_bits(x).swap_bytes())`, i.e.
the same action on the bit pattern). -/
def swapBytes (k : Nat) (x : Nat) : Nat := fromLEBytes (toLEBytes k x).reverse

/-- `ArrayContentType::byteswap`: swap every element in place. -/
def ArrayContentType.byteswap (a : ArrayContentType) : ArrayContentType :=
  { a with data := a.data.map (swapBytes a.kind.itemsize) }

/-- `ArrayContentType::push`: convert, then push; a failed conversion (the
probe object `obj` is pre-resolved to `none`) leaves the vector untouched. -/
def ArrayContentType.push (a : ArrayContentType) (obj : Option Nat) :
    Except Err Unit × ArrayContentType :=
  match obj with
  | none => (.error .convError, a)
  | some v => (.ok (), { a with data := a.data ++ [v] })

/-- The element-pushing loop shared by `extend` (iterable branch) and the
iterable branch of the constructor: push each element as it converts, stopping
at the first failure. -/
def ArrayContentType.pushAll (a : ArrayContentType) (objs : List (Option Nat)) :
    Except Err Unit × ArrayContentType :=
  match objs with
  | [] => (.ok (), a)
  | o :: rest =>
    match a.push o with
    | (.ok _, a') => a'.pushAll rest
    | (.error e, a') => (.error e, a')

/-- `ArrayContentType::fromlist`: "convert list before modify self" — all
conversions are performed into a fresh vector, which is appended only if every
one succeeded. -/
def ArrayContentType.fromlist (a : ArrayContentType) (objs : List (Option Nat)) :
    Except Err Unit × ArrayContentType :=
  match objs.traverse id with
  | none => (.error .convError, a)
  | some vals => (.ok (), { a with data := a.data ++ vals })

/-- `SequenceIndexOp::wrap_index` (a small external helper of the vm crate):
negative indices count from the end; out-of-range gives `none`. -/
def wrapIndex (i : Int) (len : Nat) : Option Nat :=
  let i' := if i < 0 then i + len else i
  if 0 ≤ i' ∧ i' < (len : Int) then some i'.toNat else none

/-- `SequenceIndexOp::saturated_at` (external helper): the clamped insertion
point used by `insert`. -/
def saturatedAt (i : Int) (len : Nat) : Nat :=
  if 0 ≤ i then min i.toNat len else len - min (-i).toNat len

/-- `ArrayContentType::pop`: wrap the index, else "pop index out of range";
remove and return the element. -/
def ArrayContentType.pop (a : ArrayContentType) (i : Int) :
    Except Err Nat × ArrayContentType :=
  match wrapIndex i a.data.length with
  | none => (.error .indexError, a)
  | some j => (a.data[j]?.elim (.error .indexError) .ok,
               { a with data := a.data.eraseIdx j })

/-- `ArrayContentType::insert`: convert, then insert at the saturated index. -/
def ArrayContentType.insert (a : ArrayContentType) (i : Int) (obj : Option Nat) :
    Except Err Unit × ArrayContentType :=
  match obj with
  | none => (.error .convError, a)
  | some v => (.ok (), { a with data := a.data.insertIdx (saturatedAt i a.data.length) v })

/-- `ArrayContentType::remove`: if the object converts and occurs, remove its
first occurrence; otherwise "array.remove(x): x not in array". -/
def ArrayContentType.remove (a : ArrayContentType) (obj : Option Nat) :
    Except Err Unit × ArrayContentType :=
  match obj with
  | none => (.error .valueError, a)
  | some v =>
    match a.data.indexOf? v with
    | none => (.error .valueError, a)
    | some j => (.ok (), { a with data := a.data.eraseIdx j })

/-- Split a byte string into its full `k`-byte chunks
(`b.len() / size_of::<T>()` elements; a trailing partial chunk is dropped, as
the raw-parts reinterpretation in `ArrayContentType::frombytes` does). -/
def chunksExact (k : Nat) (bs : List Nat) : List (List Nat) :=
  if _h : 0 < k ∧ k ≤ bs.length then
    bs.take k :: chunksExact k (bs.drop k)
  else []
termination_by bs.length
decreasing_by
  simp only [List.length_drop]
  omega

/-- `ArrayContentType::frombytes`: reinterpret the byte string as elements
(native little-endian on this target) and append them. -/
def ArrayContentType.frombytes (a : ArrayContentType) (bs : List Nat) : ArrayContentType :=
  { a with data := a.data ++ (chunksExact a.kind.itemsize bs).map fromLEBytes }

/-- `ArrayContentType::iadd`: append another array of the same kind, else
"can only extend with array of same kind". -/
def ArrayContentType.iadd (a other : ArrayContentType) :
    Except Err Unit × ArrayContentType :=
  if a.kind = other.kind then (.ok (), { a with data := a.data ++ other.data })
  else (.error .typeError, a)

/-- `SequenceMutExt::imul` (external helper): in-place sequence repetition;
a non-positive count empties the sequence.  (The source maps its allocation
failure to a `MemoryError`; allocation is not modelled.) -/
def ArrayContentType.imul (a : ArrayContentType) (n : Int) :
    Except Err Unit × ArrayContentType :=
  (.ok (), { a with data := (List.replicate n.toNat a.data).flatten })

/-- `delitem_by_index` (via the external `SliceableSequenceMutOp`): wrap the
index and remove, else an index error. -/
def ArrayContentType.delitemByIndex (a : ArrayContentType) (i : Int) :
    Except Err Unit × ArrayContentType :=
  match wrapIndex i a.data.length with
  | none => (.error .indexError, a)
  | some j => (.ok (), { a with data := a.data.eraseIdx j })

/-- `delitem_by_slice` (external `SliceableSequenceMutOp`): the normalized
slice machinery selects a set of positions; the elements at those positions
are removed.  The selected position set `idxs` is taken as given. -/
def ArrayContentType.delitemBySlice (a : ArrayContentType) (idxs : List Nat) :
    Except Err Unit × ArrayContentType :=
  (.ok (),
   { a with data := (a.data.enum.filter fun p => p.1 ∉ idxs).map Prod.snd })

/-- `PyArray`: the backing content behind a lock (locking is not modelled;
operations act atomically on the state) plus the atomic live-export counter. -/
structure PyArray where
  array : ArrayContentType
  exports : Nat
deriving DecidableEq, Repr

/-- `From<ArrayContentType> for PyArray`: fresh lock, export counter 0. -/
def PyArray.fromContent (array : ArrayContentType) : PyArray :=
  { array, exports := 0 }

/-- `BufferResizeGuard for PyArray::try_resizable_opt`: the write guard is
handed out only while no buffer view is exported. -/
def PyArray.tryResizableOpt (z : PyArray) : Option ArrayContentType :=
  if z.exports = 0 then some z.array else none

/-- `try_resizable` (vm-side wrapper): a `none` from `try_resizable_opt`
becomes the resize-conflict error ("cannot resize an array that is exporting
buffers").  `body` is the operation run under the obtained write guard. -/
def PyArray.guarded {α : Type} (z : PyArray)
    (body : ArrayContentType → Except Err α × ArrayContentType) :
    Except Err α × PyArray :=
  match z.tryResizableOpt with
  | none => (.error .resizeConflict, z)
  | some w => let (res, w') := body w; (res, { z with array := w' })

/-- `PyArray::append`. -/
def PyArray.append (z : PyArray) (x : Option Nat) : Except Err Unit × PyArray :=
  z.guarded fun w => w.push x

/-- `PyArray::insert`. -/
def PyArray.insert (z : PyArray) (i : Int) (x : Option Nat) : Except Err Unit × PyArray :=
  z.guarded fun w => w.insert i x

/-- `PyArray::remove`. -/
def PyArray.remove (z : PyArray) (x : Option Nat) : Except Err Unit × PyArray :=
  z.guarded fun w => w.remove x

/-- `PyArray::pop`: guard, then the explicit empty check, then the content
pop (the index defaults to `-1` at the call site). -/
def PyArray.pop (z : PyArray) (i : Int) : Except Err Nat × PyArray :=
  z.guarded fun w =>
    if w.data.length = 0 then (.error .indexError, w) else w.pop i

/-- The source object handed to `extend`: the array itself, another array, or
a generic iterable (with its elements' conversion outcomes pre-resolved). -/
inductive ExtendSrc where
  | selfSame
  | array (other : ArrayContentType)
  | iterable (objs : List (Option Nat))

/-- `PyArray::extend`: self-extend is `imul 2`, an array payload is `iadd`,
and any other iterable is pushed element by element into the live array. -/
def PyArray.extend (z : PyArray) (src : ExtendSrc) : Except Err Unit × PyArray :=
  z.guarded fun w =>
    match src with
    | .selfSame => w.imul 2
    | .array other => w.iadd other
    | .iterable objs => w.pushAll objs

/-- `PyArray::fromlist`. -/
def PyArray.fromlist (z : PyArray) (objs : List (Option Nat)) : Except Err Unit × PyArray :=
  z.guarded fun w => w.fromlist objs

/-- `PyArray::frombytes` via `PyArray::_from_bytes`: a length that is not a
multiple of the item size is rejected before the guard; appending zero items
skips the guard entirely. -/
def PyArray.frombytes (z : PyArray) (bs : List Nat) : Except Err Unit × PyArray :=
  let itemsize := z.array.kind.itemsize
  if bs.length % itemsize ≠ 0 then (.error .valueError, z)
  else if 0 < bs.length / itemsize then
    z.guarded fun w => (.ok (), w.frombytes bs)
  else (.ok (), z)

/-- `PyArray::__iadd__` (in-place concatenation): a non-array operand is a
type error before any guard. -/
def PyArray.iaddMethod (z : PyArray) (src : ExtendSrc) : Except Err Unit × PyArray :=
  match src with
  | .selfSame => z.guarded fun w => w.imul 2
  | .array other => z.guarded fun w => w.iadd other
  | .iterable _ => (.error .typeError, z)

/-- `PyArray::__imul__` (in-place repetition). -/
def PyArray.imulMethod (z : PyArray) (n : Int) : Except Err Unit × PyArray :=
  z.guarded fun w => w.imul n

/-- `PyArray::delitem_inner`, integer-index branch. -/
def PyArray.delitemByIndex (z : PyArray) (i : Int) : Except Err Unit × PyArray :=
  z.guarded fun w => w.delitemByIndex i

/-- `PyArray::delitem_inner`, slice branch. -/
def PyArray.delitemBySlice (z : PyArray) (idxs : List Nat) : Except Err Unit × PyArray :=
  z.guarded fun w => w.delitemBySlice idxs

/-- `PyArray::byteswap` (a non-resizing mutation: write lock, no guard). -/
def PyArray.byteswapMethod (z : PyArray) : PyArray :=
  { z with array := z.array.byteswap }

/-- `PyArray::__copy__` (and `__deepcopy__`, which delegates to it): clone the
content and rebuild through `From<ArrayContentType>`. -/
def PyArray.copy (z : PyArray) : PyArray :=
  PyArray.fromContent z.array

/-- `Constructor for PyArray::py_new`, generic-iterable branch: a fresh local
content is filled by the same push loop; only on overall success is a `PyArray`
produced (with export counter 0). -/
def pyNewIterable (kind : TypeCode) (objs : List (Option Nat)) : Except Err PyArray :=
  let (res, array) := (ArrayContentType.mk kind []).pushAll objs
  match res with
  | .ok _ => .ok (PyArray.fromContent array)
  | .error e => .error e

end Array1

namespace ClassExt

/-! ### `GetSetNursery` (src/derive-impl/src/pyclass.rs)

Names, `#[cfg]` guard attributes and accessor-function identifiers are opaque
tokens; they are embedded as strings.  The `HashMap` keyed by `(name, cfgs)`
is embedded as an association list (`HashMap::entry().or_default()` either
finds the existing triple or inserts `(None, None, None)`). -/

/-- `GetSetItemKind`. -/
inductive GetSetItemKind where
  | Get
  | Set
  | Delete
deriving DecidableEq, Repr

/-- The errors `add_item` can raise. -/
inductive AddErr where
  | cfgOnNonGetter (ident : String)          -- "Only the getter can have #[cfg]"
  | multipleAccessors (name ident : String)  -- "Multiple property accessors with name '..'"
deriving DecidableEq, Repr

/-- One nursery entry: `(getter, setter, deleter)`. -/
abbrev GetSetTriple := Option String × Option String × Option String

/-- `GetSetNursery`. -/
structure GetSetNursery where
  map : List ((String × List String) × GetSetTriple)
  validated : Bool
deriving DecidableEq, Repr

/-- Association-list lookup. -/
def mapLookup {K V : Type} [DecidableEq K] (m : List (K × V)) (k : K) : Option V :=
  (m.find? fun p => p.1 = k).map (·.2)

/-- Association-list insert-or-replace (replaces in place, appends if new). -/
def setEntry {K V : Type} [DecidableEq K] : List (K × V) → K → V → List (K × V)
  | [], k, v => [(k, v)]
  | (k', v') :: rest, k, v =>
    if k' = k then (k, v) :: rest else (k', v') :: setEntry rest k v

/-- `GetSetNursery::add_item`.  The source first rejects a non-getter carrying
`#[cfg]` attributes; then `map.entry((name, cfgs)).or_default()` finds the
entry or inserts an empty one, and a duplicate accessor for the addressed slot
is rejected.  The nursery is returned alongside the result so that the
"unchanged on error" behaviour is visible (the `or_default` re-insertion is
kept verbatim; on the duplicate path the entry necessarily pre-existed, so it
rewrites the map in place).  (The source also `assert!`s that `validate` has
not run yet — a programming-contract panic, not an error value — which is
outside the claims considered here.) -/
def GetSetNursery.addItem (n : GetSetNursery) (name : String) (cfgs : List String)
    (kind : GetSetItemKind) (ident : String) : Except AddErr Unit × GetSetNursery :=
  if kind ≠ .Get ∧ cfgs ≠ [] then (.error (.cfgOnNonGetter ident), n)
  else
    let entry := (mapLookup n.map (name, cfgs)).getD (none, none, none)
    let n' := { n with map := setEntry n.map (name, cfgs) entry }
    let slot := match kind with
      | .Get => entry.1
      | .Set => entry.2.1
      | .Delete => entry.2.2
    match slot with
    | some _ => (.error (.multipleAccessors name ident), n')
    | none =>
      let entry' := match kind with
        | .Get => (some ident, entry.2.1, entry.2.2)
        | .Set => (entry.1, some ident, entry.2.2)
        | .Delete => (entry.1, entry.2.1, some ident)
      (.ok (), { n' with map := setEntry n'.map (name, cfgs) entry' })

/-- `GetSetNursery::validate`: collect one error per entry lacking a getter
(each reported at the entry's setter, or else its deleter); only an error-free
nursery is marked validated. -/
def GetSetNursery.validate (n : GetSetNursery) :
    Except (List (String × Option String)) GetSetNursery :=
  let errors := (n.map.filter fun e => e.2.1.isNone).map fun e =>
    (e.1.1, e.2.2.1 <|> e.2.2.2)
  match errors with
  | [] => .ok { n with validated := true }
  | _ => .error errors

end ClassExt

/-! ## Theorems -/

namespace Range

theorem computeLength_pos_eq (r : PyRange) (hs : 0 < r.step) (hlt : r.start < r.stop) :
    computeLength r = (r.stop - r.start - 1) / r.step + 1 := by
  unfold computeLength
  rw [if_pos ⟨hs, hlt⟩]
  split
  · next h1 => rw [h1]; rw [Int.ediv_one]; omega
  · rfl

theorem computeLength_neg_eq (r : PyRange) (hs : r.step < 0) (hlt : r.stop < r.start) :
    computeLength r = (r.start - r.stop - 1) / (-r.step) + 1 := by
  unfold computeLength
  rw [if_neg (by omega), if_pos ⟨hs, hlt⟩]

theorem computeLength_eq_zero (r : PyRange)
    (h1 : ¬(0 < r.step ∧ r.start < r.stop)) (h2 : ¬(r.step < 0 ∧ r.stop < r.start)) :
    computeLength r = 0 := by
  unfold computeLength
  rw [if_neg h1, if_neg h2]

theorem computeLength_nonneg (r : PyRange) : 0 ≤ computeLength r := by
  unfold computeLength
  split
  · split
    · omega
    · have := Int.ediv_nonneg (a := r.stop - r.start - 1) (b := r.step) (by omega) (by omega)
      omega
  · split
    · next h2 =>
      have := Int.ediv_nonneg (a := r.start - r.stop - 1) (b := -r.step) (by omega) (by omega)
      omega
    · omega

theorem lt_computeLength_iff_pos (r : PyRange) (hs : 0 < r.step) {k : Int} (hk : 0 ≤ k) :
    k < computeLength r ↔ r.start + k * r.step < r.stop := by
  by_cases hlt : r.start < r.stop
  · rw [computeLength_pos_eq r hs hlt]
    constructor
    · intro h
      have hkq : k ≤ (r.stop - r.start - 1) / r.step := by omega
      have h1 := (Int.le_ediv_iff_mul_le hs).mp hkq
      linarith
    · intro h
      have h1 : k * r.step ≤ r.stop - r.start - 1 := by linarith
      have := (Int.le_ediv_iff_mul_le hs).mpr h1
      omega
  · rw [computeLength_eq_zero r (by omega) (by omega)]
    constructor
    · omega
    · intro h
      exfalso
      have h1 : 0 ≤ k * r.step := mul_nonneg hk hs.le
      have h2 : r.stop ≤ r.start := not_lt.mp hlt
      linarith

theorem computeLength_neg_mirror (r : PyRange) (hs : r.step < 0) :
    computeLength r = computeLength ⟨-r.start, -r.stop, -r.step⟩ := by
  by_cases hlt : r.stop < r.start
  · rw [computeLength_neg_eq r hs hlt,
      computeLength_pos_eq ⟨-r.start, -r.stop, -r.step⟩ (by simp; omega) (by simp; omega)]
    have h1 : -r.stop - -r.start - 1 = r.start - r.stop - 1 := by ring
    simp only []
    rw [h1]
  · rw [computeLength_eq_zero r (by omega) (by omega),
      computeLength_eq_zero ⟨-r.start, -r.stop, -r.step⟩ (by simp; omega) (by simp; omega)]

theorem lt_computeLength_iff_neg (r : PyRange) (hs : r.step < 0) {k : Int} (hk : 0 ≤ k) :
    k < computeLength r ↔ r.stop < r.start + k * r.step := by
  rw [computeLength_neg_mirror r hs,
    lt_computeLength_iff_pos ⟨-r.start, -r.stop, -r.step⟩ (by simp; omega) hk]
  simp only []
  constructor
  · intro h; linarith
  · intro h; linarith

theorem ceil_div_pos_eq (d s : Int) (hs : 0 < s) :
    ⌈(d : ℚ) / (s : ℚ)⌉ = (d - 1) / s + 1 := by
  rw [Int.ceil_eq_iff]
  have hsQ : (0 : ℚ) < (s : ℚ) := by exact_mod_cast hs
  constructor
  · rw [lt_div_iff₀ hsQ]
    have h1 : ((d - 1) / s) * s ≤ d - 1 := Int.ediv_mul_le _ (by omega)
    have h2 : ((d - 1) / s) * s < d := by omega
    push_cast
    have h3 : (((d - 1) / s : Int) : ℚ) * (s : ℚ) < (d : ℚ) := by exact_mod_cast h2
    linarith
  · rw [div_le_iff₀ hsQ]
    have h1 := Int.lt_ediv_add_one_mul_self (d - 1) hs
    have h2 : d ≤ ((d - 1) / s + 1) * s := by omega
    push_cast
    exact_mod_cast h2

/-- C2: for arbitrary-precision `start`, `stop`, `step` with `step ≠ 0`, the
computed length equals `⌈(stop - start) / step⌉`, clamped to zero whenever the
sign of `stop - start` disagrees with the sign of `step`; in particular the
length is 0 when `start = stop`. -/
theorem computeLength_is_clamped_ceil (r : PyRange) (h : r.step ≠ 0) :
    (computeLength r =
      if Int.sign (r.stop - r.start) = Int.sign r.step
      then ⌈((r.stop - r.start : Int) : ℚ) / ((r.step : Int) : ℚ)⌉
      else 0) ∧
    (r.start = r.stop → computeLength r = 0) := by
  constructor
  · rcases lt_or_gt_of_ne h with hneg | hpos
    · have hss : Int.sign r.step = -1 := Int.sign_eq_neg_one_iff_neg.mpr hneg
      by_cases hlt : r.stop < r.start
      · have hsd : Int.sign (r.stop - r.start) = -1 :=
          Int.sign_eq_neg_one_iff_neg.mpr (by omega)
        rw [if_pos (by rw [hss, hsd]), computeLength_neg_eq r hneg hlt]
        have hq : ((r.stop - r.start : Int) : ℚ) / ((r.step : Int) : ℚ)
            = ((r.start - r.stop : Int) : ℚ) / ((-r.step : Int) : ℚ) := by
          push_cast
          rw [div_neg, ← neg_div]
          ring_nf
        rw [hq, ceil_div_pos_eq (r.start - r.stop) (-r.step) (by omega)]
      · rw [if_neg, computeLength_eq_zero r (by omega) (by omega)]
        intro heq
        rw [hss] at heq
        rcases lt_trichotomy (r.stop - r.start) 0 with hv | hv | hv
        · omega
        · rw [hv] at heq; simp [Int.sign_zero] at heq
        · rw [Int.sign_eq_one_iff_pos.mpr hv] at heq; omega
    · have hss : Int.sign r.step = 1 := Int.sign_eq_one_iff_pos.mpr hpos
      by_cases hlt : r.start < r.stop
      · have hsd : Int.sign (r.stop - r.start) = 1 :=
          Int.sign_eq_one_iff_pos.mpr (by omega)
        rw [if_pos (by rw [hss, hsd]), computeLength_pos_eq r hpos hlt,
          ceil_div_pos_eq (r.stop - r.start) r.step hpos]
      · rw [if_neg, computeLength_eq_zero r (by omega) (by omega)]
        intro heq
        rw [hss] at heq
        rcases lt_trichotomy (r.stop - r.start) 0 with hv | hv | hv
        · rw [Int.sign_eq_neg_one_iff_neg.mpr hv] at heq; omega
        · rw [hv] at heq; simp [Int.sign_zero] at heq
        · omega
  · intro heq
    exact computeLength_eq_zero r (by omega) (by omega)

/-- C2 witness: `range(0, 10, 3)` has nonzero step; its computed length 4 is
the claimed clamped ceiling. -/
theorem computeLength_is_clamped_ceil_witness :
    ((PyRange.mk 0 10 3).step ≠ 0) ∧ computeLength ⟨0, 10, 3⟩ = 4 := by
  refine ⟨by decide, ?_⟩
  have h := (computeLength_is_clamped_ceil ⟨0, 10, 3⟩ (by decide)).1
  have hc : ⌈(((PyRange.mk 0 10 3).stop - (PyRange.mk 0 10 3).start : Int) : ℚ)
      / (((PyRange.mk 0 10 3).step : Int) : ℚ)⌉ = 4 := by
    rw [Int.ceil_eq_iff]
    constructor
    · push_cast
      norm_num
    · push_cast
      norm_num
  rw [h, if_pos (by decide), hc]

theorem rangeElements_length (r : PyRange) :
    (rangeElements r).length = (computeLength r).toNat := by
  simp [rangeElements]

theorem rangeElements_getElem? (r : PyRange) (k : Nat) :
    (rangeElements r)[k]? =
      if k < (computeLength r).toNat then some (r.start + k * r.step) else none := by
  unfold rangeElements
  by_cases h : k < (computeLength r).toNat
  · simp [List.getElem?_map, List.getElem?_range, h]
  · rw [if_neg h, List.getElem?_eq_none]
    simpa using not_lt.mp h

theorem rangeEq_iff_struct (r1 r2 : PyRange) :
    rangeEq r1 r2 = true ↔
      (computeLength r1 = computeLength r2 ∧
        (computeLength r1 = 0 ∨
          (r1.start = r2.start ∧ (computeLength r1 = 1 ∨ r1.step = r2.step)))) := by
  simp only [rangeEq]
  split_ifs with h1 h2 h3 h4 <;> simp_all

theorem rangeEq_iff_elements (r1 r2 : PyRange) :
    rangeEq r1 r2 = true ↔ rangeElements r1 = rangeElements r2 := by
  rw [rangeEq_iff_struct]
  constructor
  · rintro ⟨hlen, h⟩
    have hn : (computeLength r1).toNat = (computeLength r2).toNat := by rw [hlen]
    rcases h with h0 | ⟨hstart, h1⟩
    · have e1 : (computeLength r1).toNat = 0 := by rw [h0]; rfl
      have e2 : (computeLength r2).toNat = 0 := by rw [← hlen, h0]; rfl
      unfold rangeElements
      rw [e1, e2]
      rfl
    · rcases h1 with h1 | hstep
      · have e1 : (computeLength r1).toNat = 1 := by rw [h1]; rfl
        have e2 : (computeLength r2).toNat = 1 := by rw [← hlen, h1]; rfl
        unfold rangeElements
        rw [e1, e2]
        simp [hstart]
      · unfold rangeElements
        rw [hn, hstart, hstep]
  · intro he
    have hlen : computeLength r1 = computeLength r2 := by
      have hl := congrArg List.length he
      rw [rangeElements_length, rangeElements_length] at hl
      have g1 := computeLength_nonneg r1
      have g2 := computeLength_nonneg r2
      omega
    refine ⟨hlen, ?_⟩
    by_cases h0 : computeLength r1 = 0
    · exact Or.inl h0
    · have g1 := computeLength_nonneg r1
      have hn1 : 0 < (computeLength r1).toNat := by omega
      have e0 : (rangeElements r1)[0]? = (rangeElements r2)[0]? := by rw [he]
      rw [rangeElements_getElem?, rangeElements_getElem?, if_pos hn1,
        if_pos (by rw [← hlen]; exact hn1)] at e0
      have hstart : r1.start = r2.start := by simpa using e0
      refine Or.inr ⟨hstart, ?_⟩
      by_cases h1 : computeLength r1 = 1
      · exact Or.inl h1
      · have hn2 : 1 < (computeLength r1).toNat := by omega
        have e1 : (rangeElements r1)[1]? = (rangeElements r2)[1]? := by rw [he]
        rw [rangeElements_getElem?, rangeElements_getElem?, if_pos hn2,
          if_pos (by rw [← hlen]; exact hn2)] at e1
        have : r1.start + 1 * r1.step = r2.start + 1 * r2.step := by simpa using e1
        refine Or.inr ?_
        omega

theorem rangeEq_hash (r1 r2 : PyRange) (h : rangeEq r1 r2 = true) :
    hashElements r1 = hashElements r2 := by
  rw [rangeEq_iff_struct] at h
  obtain ⟨hlen, h⟩ := h
  simp only [hashElements, hlen]
  rcases h with h0 | ⟨hstart, h1⟩
  · have h0' : computeLength r2 = 0 := hlen ▸ h0
    simp [h0']
  · rcases h1 with h1 | hstep
    · have h1' : computeLength r2 = 1 := hlen ▸ h1
      simp [h1', hstart]
    · rw [hstart, hstep]

/-- C1 counterexample: `range(0, 4, 2)` and `range(0, 6, 2)` both have length
≥ 2 and matching start and step, yet the code compares them unequal (their
computed lengths differ), refuting "otherwise they compare equal iff both
start and step match". -/
theorem rangeEq_claim_counterexample :
    rangeEq ⟨0, 4, 2⟩ ⟨0, 6, 2⟩ = false ∧
    (PyRange.mk 0 4 2).start = (PyRange.mk 0 6 2).start ∧
    (PyRange.mk 0 4 2).step = (PyRange.mk 0 6 2).step ∧
    computeLength ⟨0, 4, 2⟩ ≠ 0 ∧ computeLength ⟨0, 4, 2⟩ ≠ 1 ∧
    computeLength ⟨0, 6, 2⟩ ≠ 0 ∧ computeLength ⟨0, 6, 2⟩ ≠ 1 := by decide

/-- C1 (amended): for ranges with nonzero step, equality holds iff the
computed lengths match and — unless the common length is 0 — the starts match
and — unless it is 1 — the steps match; equivalently, iff the effective
element sequences coincide (so `stop` enters only through the computed length,
and two ranges differing only in `stop` but with the same element sequence
compare equal); and the hash input triple is determined by equality, so equal
ranges hash equal. -/
theorem rangeEq_canonical (r1 r2 : PyRange) (h1 : r1.step ≠ 0) (h2 : r2.step ≠ 0) :
    (rangeEq r1 r2 = true ↔
      (computeLength r1 = computeLength r2 ∧
        (computeLength r1 = 0 ∨
          (r1.start = r2.start ∧ (computeLength r1 = 1 ∨ r1.step = r2.step))))) ∧
    (rangeEq r1 r2 = true ↔ rangeElements r1 = rangeElements r2) ∧
    (rangeEq r1 r2 = true → hashElements r1 = hashElements r2) :=
  ⟨rangeEq_iff_struct r1 r2, rangeEq_iff_elements r1 r2, rangeEq_hash r1 r2⟩

/-- C1 witness: `range(5, 5)` and `range(100, 100, 7)` (both empty, different
stops) satisfy the step hypotheses and compare equal with equal hash triples. -/
theorem longNext_yield (it : PyLongRangeIterator) (h : (it.index : Int) < it.length) :
    longNext it = (some (it.start + it.index * it.step),
      { it with index := (it.index + 1) % usizeMod }) := by
  unfold longNext
  rw [if_pos h]

theorem longNext_stop (it : PyLongRangeIterator) (h : ¬(it.index : Int) < it.length) :
    longNext it = (none, { it with index := (it.index + 1) % usizeMod }) := by
  unfold longNext
  rw [if_neg h]

theorem fixedNext_yield (it : PyRangeIterator) (h : it.index < it.length) :
    fixedNext it = (some (wrapIsize (it.start + wrapIsize it.index * it.step)),
      { it with index := (it.index + 1) % usizeMod }) := by
  unfold fixedNext
  rw [if_pos h]

theorem fixedNext_stop (it : PyRangeIterator) (h : ¬it.index < it.length) :
    fixedNext it = (none, { it with index := (it.index + 1) % usizeMod }) := by
  unfold fixedNext
  rw [if_neg h]

theorem runIter_iterNext_fixed (fuel : Nat) (it : PyRangeIterator) :
    runIter iterNext fuel (.fixed it) = runIter fixedNext fuel it := by
  induction fuel generalizing it with
  | zero => rfl
  | succ n ih =>
    rcases hfx : fixedNext it with ⟨v, it'⟩
    have hin : iterNext (.fixed it) = (v, .fixed it') := by simp [iterNext, hfx]
    cases v with
    | none => simp [runIter, hin, hfx]
    | some a => simp [runIter, hin, hfx, ih]

theorem runIter_iterNext_long (fuel : Nat) (it : PyLongRangeIterator) :
    runIter iterNext fuel (.long it) = runIter longNext fuel it := by
  induction fuel generalizing it with
  | zero => rfl
  | succ n ih =>
    rcases hfx : longNext it with ⟨v, it'⟩
    have hin : iterNext (.long it) = (v, .long it') := by simp [iterNext, hfx]
    cases v with
    | none => simp [runIter, hin, hfx]
    | some a => simp [runIter, hin, hfx, ih]

theorem runIter_long_count (fuel : Nat) (it : PyLongRangeIterator)
    (hle : (it.index : Int) ≤ it.length) (hmax : it.length ≤ 2 ^ 64 - 1)
    (hfuel : (it.length - it.index).toNat ≤ fuel) :
    (runIter longNext fuel it).length = (it.length - it.index).toNat := by
  induction fuel generalizing it with
  | zero => simp [runIter]; omega
  | succ n ih =>
    by_cases h : (it.index : Int) < it.length
    · have hmod : (it.index + 1) % usizeMod = it.index + 1 := by
        apply Nat.mod_eq_of_lt
        unfold usizeMod
        omega
      rw [show runIter longNext (n + 1) it =
          (it.start + it.index * it.step) ::
            runIter longNext n { it with index := (it.index + 1) % usizeMod } by
        simp [runIter, longNext_yield it h]]
      rw [List.length_cons, hmod]
      rw [ih { it with index := it.index + 1 } (by simp; omega) (by simpa using hmax)
        (by simp; omega)]
      simp
      omega
    · rw [show runIter longNext (n + 1) it = [] by simp [runIter, longNext_stop it h]]
      simp
      omega

theorem runIter_fixed_count (fuel : Nat) (it : PyRangeIterator)
    (hle : it.index ≤ it.length) (hmax : it.length ≤ 2 ^ 64 - 1)
    (hfuel : it.length - it.index ≤ fuel) :
    (runIter fixedNext fuel it).length = it.length - it.index := by
  induction fuel generalizing it with
  | zero => simp [runIter]; omega
  | succ n ih =>
    by_cases h : it.index < it.length
    · have hmod : (it.index + 1) % usizeMod = it.index + 1 := by
        apply Nat.mod_eq_of_lt
        unfold usizeMod
        omega
      rw [show runIter fixedNext (n + 1) it =
          wrapIsize (it.start + wrapIsize it.index * it.step) ::
            runIter fixedNext n { it with index := (it.index + 1) % usizeMod } by
        simp [runIter, fixedNext_yield it h]]
      rw [List.length_cons, hmod]
      rw [ih { it with index := it.index + 1 } (by simp; omega) (by simpa using hmax)
        (by simp; omega)]
      simp
      omega
    · rw [show runIter fixedNext (n + 1) it = [] by simp [runIter, fixedNext_stop it h]]
      simp
      omega

theorem runIter_long_spin (fuel : Nat) (it : PyLongRangeIterator)
    (hlen : (2 ^ 64 : Int) ≤ it.length) (hidx : it.index < 2 ^ 64) :
    (runIter longNext fuel it).length = fuel := by
  induction fuel generalizing it with
  | zero => rfl
  | succ n ih =>
    have h : (it.index : Int) < it.length := by
      have : (it.index : Int) < 2 ^ 64 := by exact_mod_cast hidx
      omega
    rw [show runIter longNext (n + 1) it =
        (it.start + it.index * it.step) ::
          runIter longNext n { it with index := (it.index + 1) % usizeMod } by
      simp [runIter, longNext_yield it h]]
    rw [List.length_cons,
      ih _ (by simpa using hlen)
        (by simpa using Nat.mod_lt (it.index + 1) (show 0 < usizeMod by decide))]

theorem rangeEq_canonical_witness :
    ((PyRange.mk 5 5 1).step ≠ 0 ∧ (PyRange.mk 100 100 7).step ≠ 0) ∧
    rangeEq ⟨5, 5, 1⟩ ⟨100, 100, 7⟩ = true ∧
    hashElements ⟨5, 5, 1⟩ = hashElements ⟨100, 100, 7⟩ :=
  ⟨⟨by decide, by decide⟩, by decide,
    (rangeEq_canonical ⟨5, 5, 1⟩ ⟨100, 100, 7⟩ (by decide) (by decide)).2.2 (by decide)⟩

/-- C3 counterexample: for `range(0, 2^64 + 1, 1)` (length `usize::MAX + 2`,
forced into the arbitrary-precision iterator) the cursor wraps, so running the
iterator for more than `length` steps still yields an element at every step:
the count of elements produced never equals the computed length. -/
theorem iteration_count_counterexample :
    (computeLength ⟨0, 2 ^ 64 + 1, 1⟩).toNat ≤ 2 ^ 64 + 2 ∧
    (runIter iterNext (2 ^ 64 + 2) (rangeIter ⟨0, 2 ^ 64 + 1, 1⟩)).length ≠
      (computeLength ⟨0, 2 ^ 64 + 1, 1⟩).toNat := by
  have hlen : computeLength ⟨0, 2 ^ 64 + 1, 1⟩ = 2 ^ 64 + 1 := by decide
  have hiter : rangeIter ⟨0, 2 ^ 64 + 1, 1⟩ =
      .long { index := 0, start := 0, step := 1, length := 2 ^ 64 + 1 } := by decide
  constructor
  · rw [hlen]
    decide
  · rw [hiter, runIter_iterNext_long,
      runIter_long_spin _ _ (by decide) (by decide), hlen]
    decide

/-- C3 (amended): for every range with `step ≠ 0` whose computed length does
not exceed `usize::MAX`, running the iterator chosen at construction (either
representation) to exhaustion produces exactly `length` elements. -/
theorem iteration_count_eq_length (r : PyRange) (h : r.step ≠ 0)
    (hmax : computeLength r ≤ 2 ^ 64 - 1) :
    ∀ fuel, (computeLength r).toNat ≤ fuel →
      (runIter iterNext fuel (rangeIter r)).length = (computeLength r).toNat := by
  intro fuel hfuel
  have hnn := computeLength_nonneg r
  unfold rangeIter
  split
  · rw [runIter_iterNext_fixed]
    have htu : toUsize (computeLength r) = some (computeLength r).toNat := by
      unfold toUsize
      rw [if_pos ⟨hnn, hmax⟩]
    rw [htu]
    rw [runIter_fixed_count fuel _ (by simp) (by simp; omega) (by simpa using hfuel)]
    simp
  · rw [runIter_iterNext_long]
    rw [runIter_long_count fuel _ (by simp; omega) (by simpa using hmax) (by simp; omega)]
    simp

/-- C3 witness: `range(0, 10, 3)` satisfies the hypotheses and iterating it
with ample fuel yields exactly 4 elements. -/
theorem iteration_count_eq_length_witness :
    ((PyRange.mk 0 10 3).step ≠ 0 ∧ computeLength ⟨0, 10, 3⟩ ≤ 2 ^ 64 - 1 ∧
      (computeLength ⟨0, 10, 3⟩).toNat ≤ 10) ∧
    (runIter iterNext 10 (rangeIter ⟨0, 10, 3⟩)).length = (computeLength ⟨0, 10, 3⟩).toNat :=
  ⟨⟨by decide, by decide, by decide⟩,
    iteration_count_eq_length ⟨0, 10, 3⟩ (by decide) (by decide) 10 (by decide)⟩

/-- C6: the claim says `__setstate__` clamps a saved index into `[0, length]`,
so index 10 on a length-5 iterator should store cursor 5; `range_state`
instead takes `max(length, usize::MAX)` and stores `usize::MAX`
(18446744073709551615).  Negative and in-range indices behave as claimed. -/
theorem rangeState_overshoot_bug :
    rangeState 5 10 = 2 ^ 64 - 1 ∧ rangeState 5 10 ≠ 5 ∧
    rangeState 5 (-3) = 0 ∧ rangeState 5 3 = 3 := by decide

theorem wrapIsize_eq_of_emod (x y : Int) (hcong : (x - y) % (2 ^ 64) = 0)
    (hy : fitsIsize y) : wrapIsize x = y := by
  unfold wrapIsize fitsIsize at *
  omega

theorem runIter_long_elements (fuel : Nat) (it : PyLongRangeIterator)
    (hle : (it.index : Int) ≤ it.length) (hmax : it.length ≤ 2 ^ 64 - 1)
    (hfuel : (it.length - it.index).toNat ≤ fuel) :
    runIter longNext fuel it =
      (List.range (it.length - it.index).toNat).map
        fun k : Nat => it.start + ((it.index : Int) + k) * it.step := by
  induction fuel generalizing it with
  | zero =>
    have h0 : (it.length - it.index).toNat = 0 := by omega
    simp [runIter, h0]
  | succ n ih =>
    by_cases h : (it.index : Int) < it.length
    · have hmod : (it.index + 1) % usizeMod = it.index + 1 := by
        apply Nat.mod_eq_of_lt
        unfold usizeMod
        omega
      rw [show runIter longNext (n + 1) it =
          (it.start + it.index * it.step) ::
            runIter longNext n { it with index := (it.index + 1) % usizeMod } by
        simp [runIter, longNext_yield it h]]
      rw [hmod, ih { it with index := it.index + 1 } (by simp; omega) (by simpa using hmax)
        (by simp; omega)]
      have hm : (it.length - it.index).toNat = (it.length - (it.index + 1)).toNat + 1 := by
        omega
      rw [hm, List.range_succ_eq_map]
      simp only [List.map_cons, List.map_map]
      refine congrArg₂ List.cons ?_ ?_
      · push_cast
        ring
      · refine List.map_congr_left fun a _ => ?_
        simp only [Function.comp_apply]
        push_cast
        ring
    · have h0 : (it.length - it.index).toNat = 0 := by omega
      rw [show runIter longNext (n + 1) it = [] by simp [runIter, longNext_stop it h]]
      simp [h0]

theorem runIter_fixed_elements (fuel : Nat) (it : PyRangeIterator)
    (hle : it.index ≤ it.length) (hmax : it.length ≤ 2 ^ 64 - 1)
    (hfuel : it.length - it.index ≤ fuel) :
    runIter fixedNext fuel it =
      (List.range (it.length - it.index)).map
        fun k : Nat => wrapIsize (it.start + wrapIsize ((it.index : Int) + k) * it.step) := by
  induction fuel generalizing it with
  | zero =>
    have h0 : it.length - it.index = 0 := by omega
    simp [runIter, h0]
  | succ n ih =>
    by_cases h : it.index < it.length
    · have hmod : (it.index + 1) % usizeMod = it.index + 1 := by
        apply Nat.mod_eq_of_lt
        unfold usizeMod
        omega
      rw [show runIter fixedNext (n + 1) it =
          wrapIsize (it.start + wrapIsize it.index * it.step) ::
            runIter fixedNext n { it with index := (it.index + 1) % usizeMod } by
        simp [runIter, fixedNext_yield it h]]
      rw [hmod, ih { it with index := it.index + 1 } (by simp; omega) (by simpa using hmax)
        (by simp; omega)]
      have hm : it.length - it.index = (it.length - (it.index + 1)) + 1 := by omega
      rw [hm, List.range_succ_eq_map]
      simp only [List.map_cons, List.map_map]
      refine congrArg₂ List.cons ?_ ?_
      · simp only [Nat.cast_zero, add_zero]
      · refine List.map_congr_left fun a _ => ?_
        simp only [Function.comp_apply]
        have hxy : ((it.index + 1 : Nat) : Int) + (a : Int)
            = (it.index : Int) + ((a + 1 : Nat) : Int) := by
          push_cast
          ring
        rw [hxy]
    · have h0 : it.length - it.index = 0 := by omega
      rw [show runIter fixedNext (n + 1) it = [] by simp [runIter, fixedNext_stop it h]]
      simp [h0]

theorem fitsIsize_element (r : PyRange) (hs : r.step ≠ 0)
    (hf1 : fitsIsize r.start) (hf3 : fitsIsize r.stop) {k : Int}
    (hk0 : 0 ≤ k) (hk : k < computeLength r) :
    fitsIsize (r.start + k * r.step) := by
  unfold fitsIsize at *
  rcases lt_or_gt_of_ne hs with hneg | hpos
  · have h1 := (lt_computeLength_iff_neg r hneg hk0).mp hk
    have h2 : k * r.step ≤ 0 := mul_nonpos_of_nonneg_of_nonpos hk0 hneg.le
    constructor
    · linarith [hf3.1]
    · linarith [hf1.2]
  · have h1 := (lt_computeLength_iff_pos r hpos hk0).mp hk
    have h2 : 0 ≤ k * r.step := mul_nonneg hk0 hpos.le
    constructor
    · linarith [hf1.1]
    · linarith [hf3.2]

theorem iterToList_eq_rangeElements (r : PyRange) (hs : r.step ≠ 0)
    (hmax : computeLength r ≤ 2 ^ 64 - 1) :
    iterToList r = rangeElements r := by
  have hnn := computeLength_nonneg r
  unfold iterToList rangeElements rangeIter
  split
  · next hfits =>
    obtain ⟨hf1, hf2, hf3, hf4⟩ := hfits
    rw [runIter_iterNext_fixed]
    have htu : toUsize (computeLength r) = some (computeLength r).toNat := by
      unfold toUsize
      rw [if_pos ⟨hnn, hmax⟩]
    rw [htu]
    rw [runIter_fixed_elements _ _ (by simp) (by simp; omega) (by simp)]
    simp only [Option.getD_some, Nat.sub_zero, Nat.cast_zero, zero_add]
    apply List.map_congr_left
    intro k hk
    rw [List.mem_range] at hk
    have hk' : (k : Int) < computeLength r := by omega
    have hval := fitsIsize_element r hs hf1 hf3 (Int.natCast_nonneg k) hk'
    have hcong1 : (wrapIsize (k : Int) - (k : Int)) % (2 ^ 64) = 0 := by
      unfold wrapIsize
      omega
    have hcong :
        ((r.start + wrapIsize (k : Int) * r.step) - (r.start + (k : Int) * r.step))
          % 2 ^ 64 = 0 := by
      have he : (r.start + wrapIsize (k : Int) * r.step) - (r.start + (k : Int) * r.step)
          = (wrapIsize (k : Int) - (k : Int)) * r.step := by ring
      rw [he]
      exact Int.emod_eq_zero_of_dvd
        ((Int.dvd_of_emod_eq_zero hcong1).mul_right r.step)
    exact wrapIsize_eq_of_emod _ _ hcong hval
  · rw [runIter_iterNext_long]
    rw [runIter_long_elements _ _ (by simp; omega) (by simpa using hmax) (by simp)]
    simp only [Nat.cast_zero, Int.sub_zero, zero_add]

theorem iterSearch_go_contains (eq : Int → Bool) (l : List Int) (c : Nat) :
    iterSearch.go eq .Contains l c = .ok (if l.any eq then 1 else 0) := by
  induction l generalizing c with
  | nil => simp [iterSearch.go]
  | cons a rest ih =>
    by_cases h : eq a
    · simp [iterSearch.go, h]
    · simp [iterSearch.go, h, ih]

theorem iterSearch_go_index (eq : Int → Bool) (l : List Int) (c : Nat) :
    iterSearch.go eq .Index l c = if l.any eq then .ok c else .error () := by
  induction l generalizing c with
  | nil => simp [iterSearch.go]
  | cons a rest ih =>
    by_cases h : eq a
    · simp [iterSearch.go, h]
    · simp [iterSearch.go, h, ih]

theorem offset_pos_eq (r : PyRange) (v : Int) (h : 0 < r.step) :
    offset r v = if r.start ≤ v ∧ v < r.stop then some (v - r.start) else none := by
  unfold offset
  rw [if_pos h]

theorem offset_neg_eq (r : PyRange) (v : Int) (h : r.step < 0) :
    offset r v = if v ≤ r.start ∧ r.stop < v then some (r.start - v) else none := by
  unfold offset
  rw [if_neg (by omega), if_pos h]

theorem containsInner_exact (r : PyRange) (v : Int) :
    containsInner r (.exactInt v) =
      (match offset r v with
       | some o => decide (r.step ∣ o)
       | none => false) := rfl

theorem rangeIndex_exact (r : PyRange) (v : Int) :
    rangeIndex r (.exactInt v) =
      (match indexOf r v with
       | some idx => .ok idx
       | none => .error ()) := rfl

theorem containsInner_foreign (r : PyRange) (eq : Int → Bool) :
    containsInner r (.foreign eq) =
      decide ((match iterSearch (iterToList r) eq .Contains with
        | .ok n => n
        | .error _ => 0) ≠ 0) := rfl

theorem rangeIndex_foreign (r : PyRange) (eq : Int → Bool) :
    rangeIndex r (.foreign eq) =
      (iterSearch (iterToList r) eq .Index).map (fun n : Nat => (n : Int)) := by
  unfold rangeIndex
  rfl

theorem indexOf_eq_some_iff (r : PyRange) (hs : r.step ≠ 0) (v k : Int) :
    indexOf r v = some k ↔
      (0 ≤ k ∧ k < computeLength r ∧ v = r.start + k * r.step) := by
  rcases lt_or_gt_of_ne hs with hneg | hpos
  · by_cases hin : v ≤ r.start ∧ r.stop < v
    · have ho : offset r v = some (r.start - v) := by
        rw [offset_neg_eq r v hneg, if_pos hin]
      unfold indexOf
      simp only [ho]
      constructor
      · intro h
        split_ifs at h with hdvd
        · simp only [Option.some.injEq] at h
          obtain ⟨q, hq⟩ := hdvd
          have hq' : (r.start - v) / r.step = q := by
            rw [hq, Int.mul_ediv_cancel_left _ hs]
          have hqle : q ≤ 0 := by
            by_contra hq0
            push_neg at hq0
            have hlt : r.step * q < 0 := mul_neg_of_neg_of_pos hneg hq0
            linarith [hin.1, hq]
          have hk : k = -q := by rw [← h, hq', abs_of_nonpos hqle]
          have hv : v = r.start + k * r.step := by
            rw [hk]
            have hq2 : r.start - v = r.step * q := hq
            linarith [hq2]
          refine ⟨by omega, ?_, hv⟩
          rw [lt_computeLength_iff_neg r hneg (by omega), ← hv]
          exact hin.2
      · rintro ⟨hk0, hklen, hveq⟩
        have hdvd : r.step ∣ r.start - v := ⟨-k, by rw [hveq]; ring⟩
        rw [if_pos hdvd]
        have hq : (r.start - v) / r.step = -k := by
          rw [show r.start - v = r.step * (-k) by rw [hveq]; ring,
            Int.mul_ediv_cancel_left _ hs]
        rw [hq, abs_neg, abs_of_nonneg hk0]
    · have ho : offset r v = none := by
        rw [offset_neg_eq r v hneg, if_neg hin]
      unfold indexOf
      simp only [ho]
      constructor
      · intro h
        exact absurd h (by simp)
      · rintro ⟨hk0, hklen, hveq⟩
        exfalso
        apply hin
        have hstop := (lt_computeLength_iff_neg r hneg hk0).mp hklen
        constructor
        · have hns : k * r.step ≤ 0 := mul_nonpos_of_nonneg_of_nonpos hk0 hneg.le
          linarith [hveq]
        · rw [hveq]
          exact hstop
  · by_cases hin : r.start ≤ v ∧ v < r.stop
    · have ho : offset r v = some (v - r.start) := by
        rw [offset_pos_eq r v hpos, if_pos hin]
      unfold indexOf
      simp only [ho]
      constructor
      · intro h
        split_ifs at h with hdvd
        · simp only [Option.some.injEq] at h
          obtain ⟨q, hq⟩ := hdvd
          have hq' : (v - r.start) / r.step = q := by
            rw [hq, Int.mul_ediv_cancel_left _ hs]
          have hqge : 0 ≤ q := by
            by_contra hq0
            push_neg at hq0
            have hlt : r.step * q < 0 := mul_neg_of_pos_of_neg hpos hq0
            linarith [hin.1, hq]
          have hk : k = q := by rw [← h, hq', abs_of_nonneg hqge]
          have hv : v = r.start + k * r.step := by
            rw [hk]
            have hq2 : v - r.start = r.step * q := hq
            linarith [hq2]
          refine ⟨by omega, ?_, hv⟩
          rw [lt_computeLength_iff_pos r hpos (by omega), ← hv]
          exact hin.2
      · rintro ⟨hk0, hklen, hveq⟩
        have hdvd : r.step ∣ v - r.start := ⟨k, by rw [hveq]; ring⟩
        rw [if_pos hdvd]
        have hq : (v - r.start) / r.step = k := by
          rw [show v - r.start = r.step * k by rw [hveq]; ring,
            Int.mul_ediv_cancel_left _ hs]
        rw [hq, abs_of_nonneg hk0]
    · have ho : offset r v = none := by
        rw [offset_pos_eq r v hpos, if_neg hin]
      unfold indexOf
      simp only [ho]
      constructor
      · intro h
        exact absurd h (by simp)
      · rintro ⟨hk0, hklen, hveq⟩
        exfalso
        apply hin
        have hstop := (lt_computeLength_iff_pos r hpos hk0).mp hklen
        constructor
        · have hns : 0 ≤ k * r.step := mul_nonneg hk0 hpos.le
          linarith [hveq]
        · rw [hveq]
          exact hstop

theorem containsInner_exact_eq_isSome (r : PyRange) (v : Int) :
    containsInner r (.exactInt v) = (indexOf r v).isSome := by
  rw [containsInner_exact]
  unfold indexOf
  cases offset r v with
  | none => rfl
  | some o =>
    by_cases h : r.step ∣ o
    · simp [h]
    · simp [h]

/-- C7: membership and index-of take the arithmetic path exactly for probes
that are genuine ints of the exact checked kind, and there they answer true /
return `k` iff the probe is `start + k*step` with `k ∈ [0, length)`; every
other probe falls back to `iter_search`, a linear scan through the produced
iteration sequence comparing with generic equality (the scan reports
membership as "any element matches"; its index result is the `count` value at
the first match, which the loop leaves at 0). -/
theorem membership_index_fast_and_fallback (r : PyRange) (hs : r.step ≠ 0) :
    (∀ v : Int, containsInner r (.exactInt v) = true ↔
      ∃ k : Int, 0 ≤ k ∧ k < computeLength r ∧ v = r.start + k * r.step) ∧
    (∀ v k : Int, rangeIndex r (.exactInt v) = .ok k ↔
      (0 ≤ k ∧ k < computeLength r ∧ v = r.start + k * r.step)) ∧
    (computeLength r ≤ 2 ^ 64 - 1 →
      ∀ eq : Int → Bool,
        containsInner r (.foreign eq) = (rangeElements r).any eq ∧
        rangeIndex r (.foreign eq) =
          (if (rangeElements r).any eq then .ok 0 else .error ())) := by
  refine ⟨?_, ?_, ?_⟩
  · intro v
    rw [containsInner_exact_eq_isSome, Option.isSome_iff_exists]
    constructor
    · rintro ⟨k, hk⟩
      exact ⟨k, (indexOf_eq_some_iff r hs v k).mp hk⟩
    · rintro ⟨k, hk⟩
      exact ⟨k, (indexOf_eq_some_iff r hs v k).mpr hk⟩
  · intro v k
    show (match indexOf r v with
      | some idx => Except.ok idx
      | none => Except.error ()) = Except.ok k ↔ _
    rw [← indexOf_eq_some_iff r hs v k]
    cases indexOf r v with
    | none => simp
    | some idx => simp
  · intro hmax eq
    have hel := iterToList_eq_rangeElements r hs hmax
    constructor
    · show decide ((match iterSearch (iterToList r) eq .Contains with
        | .ok n => n
        | .error _ => 0) ≠ 0) = (rangeElements r).any eq
      rw [hel]
      unfold iterSearch
      rw [iterSearch_go_contains]
      by_cases h : (rangeElements r).any eq
      · simp [h]
      · simp [h]
    · show (iterSearch (iterToList r) eq .Index).map _ = _
      rw [hel]
      unfold iterSearch
      rw [iterSearch_go_index]
      by_cases h : (rangeElements r).any eq
      · simp [h, Except.map]
      · simp [h, Except.map]

/-- C7 witness: in `range(0, 10, 3)`, the exact-int probe 9 is found
arithmetically at index 3, the exact-int probe 10 is rejected, and a foreign
probe whose generic equality matches 6 is found by the linear scan. -/
theorem membership_index_fast_and_fallback_witness :
    ((PyRange.mk 0 10 3).step ≠ 0) ∧
    containsInner ⟨0, 10, 3⟩ (.exactInt 9) = true ∧
    containsInner ⟨0, 10, 3⟩ (.exactInt 10) = false ∧
    rangeIndex ⟨0, 10, 3⟩ (.exactInt 9) = .ok 3 ∧
    containsInner ⟨0, 10, 3⟩ (.foreign fun x => x = 6) = true := by
  refine ⟨by decide, ?_, by decide, ?_, ?_⟩
  · exact ((membership_index_fast_and_fallback ⟨0, 10, 3⟩ (by decide)).1 9).mpr
      ⟨3, by decide, by decide, by decide⟩
  · exact ((membership_index_fast_and_fallback ⟨0, 10, 3⟩ (by decide)).2.1 9 3).mpr
      ⟨by decide, by decide, by decide⟩
  · have h := ((membership_index_fast_and_fallback ⟨0, 10, 3⟩ (by decide)).2.2
      (by decide) fun x => x = 6).1
    rw [h]
    decide

end Range

namespace Array1

theorem guarded_blocked {α : Type} (z : PyArray)
    (body : ArrayContentType → Except Err α × ArrayContentType) (h : z.exports ≠ 0) :
    z.guarded body = (.error .resizeConflict, z) := by
  unfold PyArray.guarded PyArray.tryResizableOpt
  rw [if_neg h]

theorem guarded_open {α : Type} (z : PyArray)
    (body : ArrayContentType → Except Err α × ArrayContentType) (h : z.exports = 0) :
    z.guarded body = ((body z.array).1, { z with array := (body z.array).2 }) := by
  unfold PyArray.guarded PyArray.tryResizableOpt
  rw [if_pos h]

theorem push_no_conflict (w : ArrayContentType) (x : Option Nat) :
    (w.push x).1 ≠ .error .resizeConflict := by
  cases x <;> simp [ArrayContentType.push]

theorem pushAll_no_conflict (w : ArrayContentType) (objs : List (Option Nat)) :
    (w.pushAll objs).1 ≠ .error .resizeConflict := by
  induction objs generalizing w with
  | nil => simp [ArrayContentType.pushAll]
  | cons o rest ih =>
    cases o with
    | none => simp [ArrayContentType.pushAll, ArrayContentType.push]
    | some v => simpa [ArrayContentType.pushAll, ArrayContentType.push] using ih _

theorem insert_no_conflict (w : ArrayContentType) (i : Int) (x : Option Nat) :
    (w.insert i x).1 ≠ .error .resizeConflict := by
  cases x <;> simp [ArrayContentType.insert]

theorem remove_no_conflict (w : ArrayContentType) (x : Option Nat) :
    (w.remove x).1 ≠ .error .resizeConflict := by
  cases x with
  | none => simp [ArrayContentType.remove]
  | some v =>
    unfold ArrayContentType.remove
    rcases hio : w.data.indexOf? v with _ | j <;> simp [hio]

theorem pop_no_conflict (w : ArrayContentType) (i : Int) :
    (w.pop i).1 ≠ .error .resizeConflict := by
  unfold ArrayContentType.pop
  rcases hw : wrapIndex i w.data.length with _ | j
  · simp [hw]
  · rcases hg : w.data[j]? with _ | val <;> simp [hw, hg, Option.elim]

theorem fromlist_no_conflict (w : ArrayContentType) (objs : List (Option Nat)) :
    (w.fromlist objs).1 ≠ .error .resizeConflict := by
  unfold ArrayContentType.fromlist
  rcases ht : objs.traverse id with _ | vals <;> simp [ht]

theorem iadd_no_conflict (w other : ArrayContentType) :
    (w.iadd other).1 ≠ .error .resizeConflict := by
  unfold ArrayContentType.iadd
  split_ifs <;> simp

theorem imul_no_conflict (w : ArrayContentType) (n : Int) :
    (w.imul n).1 ≠ .error .resizeConflict := by
  simp [ArrayContentType.imul]

theorem delitemByIndex_no_conflict (w : ArrayContentType) (i : Int) :
    (w.delitemByIndex i).1 ≠ .error .resizeConflict := by
  unfold ArrayContentType.delitemByIndex
  cases wrapIndex i w.data.length <;> simp

theorem delitemBySlice_no_conflict (w : ArrayContentType) (idxs : List Nat) :
    (w.delitemBySlice idxs).1 ≠ .error .resizeConflict := by
  simp [ArrayContentType.delitemBySlice]

/-- C4: while a buffer view is exported (`exports ≠ 0`), every length-changing
call — append, insert, remove, pop, extend, fromlist, frombytes (when it would
append at least one item), in-place concatenation and repetition, item and
slice deletion — fails with the resize-conflict error and leaves the array
(contents and counter) exactly as it was; once the view is released
(`exports = 0`) the same calls are never refused for a resize conflict (they
run their ordinary bodies), and in particular appending a convertible element
succeeds and grows the length by one. -/
theorem array_resize_guard :
    (∀ (z : PyArray) (x : Option Nat), z.exports ≠ 0 →
      z.append x = (.error .resizeConflict, z)) ∧
    (∀ (z : PyArray) (i : Int) (x : Option Nat), z.exports ≠ 0 →
      z.insert i x = (.error .resizeConflict, z)) ∧
    (∀ (z : PyArray) (x : Option Nat), z.exports ≠ 0 →
      z.remove x = (.error .resizeConflict, z)) ∧
    (∀ (z : PyArray) (i : Int), z.exports ≠ 0 →
      z.pop i = (.error .resizeConflict, z)) ∧
    (∀ (z : PyArray) (src : ExtendSrc), z.exports ≠ 0 →
      z.extend src = (.error .resizeConflict, z)) ∧
    (∀ (z : PyArray) (objs : List (Option Nat)), z.exports ≠ 0 →
      z.fromlist objs = (.error .resizeConflict, z)) ∧
    (∀ (z : PyArray) (bs : List Nat), z.exports ≠ 0 →
      bs.length % z.array.kind.itemsize = 0 → 0 < bs.length / z.array.kind.itemsize →
      z.frombytes bs = (.error .resizeConflict, z)) ∧
    (∀ (z : PyArray) (other : ArrayContentType), z.exports ≠ 0 →
      z.iaddMethod (.array other) = (.error .resizeConflict, z)) ∧
    (∀ (z : PyArray), z.exports ≠ 0 →
      z.iaddMethod .selfSame = (.error .resizeConflict, z)) ∧
    (∀ (z : PyArray) (n : Int), z.exports ≠ 0 →
      z.imulMethod n = (.error .resizeConflict, z)) ∧
    (∀ (z : PyArray) (i : Int), z.exports ≠ 0 →
      z.delitemByIndex i = (.error .resizeConflict, z)) ∧
    (∀ (z : PyArray) (idxs : List Nat), z.exports ≠ 0 →
      z.delitemBySlice idxs = (.error .resizeConflict, z)) ∧
    (∀ (z : PyArray) (x : Option Nat), z.exports = 0 →
      (z.append x).1 ≠ .error .resizeConflict) ∧
    (∀ (z : PyArray) (i : Int) (x : Option Nat), z.exports = 0 →
      (z.insert i x).1 ≠ .error .resizeConflict) ∧
    (∀ (z : PyArray) (x : Option Nat), z.exports = 0 →
      (z.remove x).1 ≠ .error .resizeConflict) ∧
    (∀ (z : PyArray) (i : Int), z.exports = 0 →
      (z.pop i).1 ≠ .error .resizeConflict) ∧
    (∀ (z : PyArray) (src : ExtendSrc), z.exports = 0 →
      (z.extend src).1 ≠ .error .resizeConflict) ∧
    (∀ (z : PyArray) (objs : List (Option Nat)), z.exports = 0 →
      (z.fromlist objs).1 ≠ .error .resizeConflict) ∧
    (∀ (z : PyArray) (bs : List Nat), z.exports = 0 →
      (z.frombytes bs).1 ≠ .error .resizeConflict) ∧
    (∀ (z : PyArray) (src : ExtendSrc), z.exports = 0 →
      (z.iaddMethod src).1 ≠ .error .resizeConflict) ∧
    (∀ (z : PyArray) (n : Int), z.exports = 0 →
      (z.imulMethod n).1 ≠ .error .resizeConflict) ∧
    (∀ (z : PyArray) (i : Int), z.exports = 0 →
      (z.delitemByIndex i).1 ≠ .error .resizeConflict) ∧
    (∀ (z : PyArray) (idxs : List Nat), z.exports = 0 →
      (z.delitemBySlice idxs).1 ≠ .error .resizeConflict) ∧
    (∀ (z : PyArray) (v : Nat), z.exports = 0 →
      z.append (some v) =
        (.ok (), { z with array := { z.array with data := z.array.data ++ [v] } })) := by
  refine ⟨?_, ?_, ?_, ?_, ?_, ?_, ?_, ?_, ?_, ?_, ?_, ?_,
    ?_, ?_, ?_, ?_, ?_, ?_, ?_, ?_, ?_, ?_, ?_, ?_⟩
  · intro z x h
    exact guarded_blocked z _ h
  · intro z i x h
    exact guarded_blocked z _ h
  · intro z x h
    exact guarded_blocked z _ h
  · intro z i h
    exact guarded_blocked z _ h
  · intro z src h
    exact guarded_blocked z _ h
  · intro z objs h
    exact guarded_blocked z _ h
  · intro z bs h halign hpos
    unfold PyArray.frombytes
    rw [if_neg (by omega), if_pos hpos]
    exact guarded_blocked z _ h
  · intro z other h
    simp only [PyArray.iaddMethod]
    exact guarded_blocked z _ h
  · intro z h
    simp only [PyArray.iaddMethod]
    exact guarded_blocked z _ h
  · intro z n h
    exact guarded_blocked z _ h
  · intro z i h
    exact guarded_blocked z _ h
  · intro z idxs h
    exact guarded_blocked z _ h
  · intro z x h
    rw [show z.append x = z.guarded fun w => w.push x from rfl, guarded_open z _ h]
    exact push_no_conflict z.array x
  · intro z i x h
    rw [show z.insert i x = z.guarded fun w => w.insert i x from rfl, guarded_open z _ h]
    exact insert_no_conflict z.array i x
  · intro z x h
    rw [show z.remove x = z.guarded fun w => w.remove x from rfl, guarded_open z _ h]
    exact remove_no_conflict z.array x
  · intro z i h
    rw [show z.pop i = z.guarded fun w =>
      (if w.data.length = 0 then (.error .indexError, w) else w.pop i) from rfl,
      guarded_open z _ h]
    split_ifs with hempty
    · simp
    · exact pop_no_conflict z.array i
  · intro z src h
    unfold PyArray.extend
    rw [guarded_open z _ h]
    cases src with
    | selfSame => exact imul_no_conflict z.array 2
    | array other => exact iadd_no_conflict z.array other
    | iterable objs => exact pushAll_no_conflict z.array objs
  · intro z objs h
    unfold PyArray.fromlist
    rw [guarded_open z _ h]
    exact fromlist_no_conflict z.array objs
  · intro z bs h
    unfold PyArray.frombytes
    dsimp only
    split_ifs with h1 h2
    · simp
    · rw [guarded_open z _ h]
      simp
    · simp
  · intro z src h
    cases src with
    | selfSame =>
      simp only [PyArray.iaddMethod]
      rw [guarded_open z _ h]
      exact imul_no_conflict z.array 2
    | array other =>
      simp only [PyArray.iaddMethod]
      rw [guarded_open z _ h]
      exact iadd_no_conflict z.array other
    | iterable objs => simp [PyArray.iaddMethod]
  · intro z n h
    unfold PyArray.imulMethod
    rw [guarded_open z _ h]
    exact imul_no_conflict z.array n
  · intro z i h
    unfold PyArray.delitemByIndex
    rw [guarded_open z _ h]
    exact delitemByIndex_no_conflict z.array i
  · intro z idxs h
    unfold PyArray.delitemBySlice
    rw [guarded_open z _ h]
    exact delitemBySlice_no_conflict z.array idxs
  · intro z v h
    rw [show z.append (some v) = z.guarded fun w => w.push (some v) from rfl,
      guarded_open z _ h]
    rfl

/-- C4 witness: with one live export, appending 3 to a byte array `[1, 2]`
fails with the resize conflict and leaves it untouched; with the export
released the same append succeeds and the length grows from 2 to 3. -/
theorem array_resize_guard_witness :
    ((PyArray.mk ⟨.sb, [1, 2]⟩ 1).exports ≠ 0 ∧ (PyArray.mk ⟨.sb, [1, 2]⟩ 0).exports = 0) ∧
    (PyArray.mk ⟨.sb, [1, 2]⟩ 1).append (some 3) =
      (.error .resizeConflict, PyArray.mk ⟨.sb, [1, 2]⟩ 1) ∧
    (PyArray.mk ⟨.sb, [1, 2]⟩ 0).append (some 3) =
      (.ok (), PyArray.mk ⟨.sb, [1, 2, 3]⟩ 0) := by
  refine ⟨⟨by decide, by decide⟩, ?_, ?_⟩
  · exact array_resize_guard.1 (PyArray.mk ⟨.sb, [1, 2]⟩ 1) (some 3) (by decide)
  · have h := (array_resize_guard.2.2.2.2.2.2.2.2.2.2.2.2.2.2.2.2.2.2.2.2.2.2.2)
      (PyArray.mk ⟨.sb, [1, 2]⟩ 0) 3 (by decide)
    simpa using h

theorem pushAll_spec (a : ArrayContentType) (objs : List (Option Nat)) :
    a.pushAll objs =
      if none ∈ objs
      then (.error .convError,
        { a with data := a.data ++ (objs.takeWhile Option.isSome).reduceOption })
      else (.ok (), { a with data := a.data ++ objs.reduceOption }) := by
  induction objs generalizing a with
  | nil => simp [ArrayContentType.pushAll, List.reduceOption]
  | cons o rest ih =>
    cases o with
    | none =>
      simp [ArrayContentType.pushAll, ArrayContentType.push, List.takeWhile_cons,
        Option.isSome]
    | some v =>
      simp only [ArrayContentType.pushAll, ArrayContentType.push]
      rw [ih]
      by_cases hmem : none ∈ rest
      · rw [if_pos hmem, if_pos (by simp [hmem])]
        simp [List.takeWhile_cons, Option.isSome, List.reduceOption_cons_of_some]
      · rw [if_neg hmem, if_neg (by simp [hmem])]
        simp [List.reduceOption_cons_of_some]

/-- C5 counterexample: extending the byte array `[5]` from the iterable whose
elements convert as `[ok 1, fail]` fails on the second element but leaves the
first already appended — the array is `[5, 1]`, not `[5]` as the claim
requires. -/
theorem extend_partial_mutation_counterexample :
    PyArray.extend ⟨⟨.sb, [5]⟩, 0⟩ (.iterable [some 1, none]) =
      (.error .convError, ⟨⟨.sb, [5, 1]⟩, 0⟩) ∧
    PyArray.mk ⟨.sb, [5, 1]⟩ 0 ≠ PyArray.mk ⟨.sb, [5]⟩ 0 := by
  refine ⟨rfl, by decide⟩

/-- C5 (amended): `fromlist` converts every element before committing, so a
conversion failure leaves the array unchanged and success appends exactly the
converted values; construction from an iterable commits no array on failure;
but `extend` from a generic iterable pushes each element as it converts, so a
mid-batch conversion failure leaves the successfully converted prefix
appended to the array. -/
theorem bulk_conversion_behaviour :
    (∀ (z : PyArray) (objs : List (Option Nat)), z.exports = 0 →
      objs.traverse id = none → z.fromlist objs = (.error .convError, z)) ∧
    (∀ (z : PyArray) (objs : List (Option Nat)) (vals : List Nat), z.exports = 0 →
      objs.traverse id = some vals →
      z.fromlist objs =
        (.ok (), { z with array := { z.array with data := z.array.data ++ vals } })) ∧
    (∀ (kind : TypeCode) (objs : List (Option Nat)), none ∈ objs →
      pyNewIterable kind objs = .error .convError) ∧
    (∀ (z : PyArray) (objs : List (Option Nat)), z.exports = 0 → none ∈ objs →
      z.extend (.iterable objs) =
        (.error .convError,
          { z with array := { z.array with
              data := z.array.data ++ (objs.takeWhile Option.isSome).reduceOption } })) := by
  refine ⟨?_, ?_, ?_, ?_⟩
  · intro z objs h0 htr
    unfold PyArray.fromlist
    rw [guarded_open z _ h0]
    unfold ArrayContentType.fromlist
    simp [htr]
  · intro z objs vals h0 htr
    unfold PyArray.fromlist
    rw [guarded_open z _ h0]
    unfold ArrayContentType.fromlist
    simp [htr]
  · intro kind objs hmem
    unfold pyNewIterable
    rw [pushAll_spec]
    rw [if_pos hmem]
  · intro z objs h0 hmem
    unfold PyArray.extend
    rw [guarded_open z _ h0]
    show ((z.array.pushAll objs).1, { z with array := (z.array.pushAll objs).2 }) = _
    rw [pushAll_spec, if_pos hmem]

/-- C5 witness: `fromlist` with a failing element leaves `[7]` untouched, and
the constructor from the same iterable produces no array. -/
theorem bulk_conversion_behaviour_witness :
    ((PyArray.mk ⟨.sb, [7]⟩ 0).exports = 0 ∧
      ([some 1, none] : List (Option Nat)).traverse id = none ∧
      none ∈ ([some 1, none] : List (Option Nat))) ∧
    (PyArray.mk ⟨.sb, [7]⟩ 0).fromlist [some 1, none] =
      (.error .convError, PyArray.mk ⟨.sb, [7]⟩ 0) ∧
    pyNewIterable .sb [some 1, none] = .error .convError := by
  refine ⟨⟨by decide, by decide, by decide⟩, ?_, ?_⟩
  · exact bulk_conversion_behaviour.1 _ _ (by decide) (by decide)
  · exact bulk_conversion_behaviour.2.2.1 .sb _ (by decide)

theorem toLEBytes_length (k x : Nat) : (toLEBytes k x).length = k := by
  induction k generalizing x with
  | zero => rfl
  | succ n ih => simp [toLEBytes, ih]

theorem toLEBytes_lt (k x : Nat) : ∀ b ∈ toLEBytes k x, b < 256 := by
  induction k generalizing x with
  | zero => simp [toLEBytes]
  | succ n ih =>
    intro b hb
    simp only [toLEBytes, List.mem_cons] at hb
    rcases hb with hb | hb
    · omega
    · exact ih _ b hb

theorem fromLEBytes_toLEBytes (k x : Nat) (h : x < 2 ^ (8 * k)) :
    fromLEBytes (toLEBytes k x) = x := by
  induction k generalizing x with
  | zero =>
    simp only [Nat.mul_zero, pow_zero] at h
    simp [toLEBytes, fromLEBytes]
    omega
  | succ n ih =>
    have hx : x / 256 < 2 ^ (8 * n) := by
      have hp : 2 ^ (8 * (n + 1)) = 2 ^ (8 * n) * 256 := by
        rw [show 8 * (n + 1) = 8 * n + 8 by ring, pow_add]
        norm_num
      rw [hp] at h
      omega
    simp only [toLEBytes, fromLEBytes, ih _ hx]
    omega

theorem toLEBytes_fromLEBytes (l : List Nat) (h : ∀ b ∈ l, b < 256) :
    toLEBytes l.length (fromLEBytes l) = l := by
  induction l with
  | nil => rfl
  | cons b rest ih =>
    have hb : b < 256 := h b (List.mem_cons_self b rest)
    have h1 : (b + 256 * fromLEBytes rest) % 256 = b := by omega
    have h2 : (b + 256 * fromLEBytes rest) / 256 = fromLEBytes rest := by omega
    simp only [List.length_cons, toLEBytes, fromLEBytes, h1, h2]
    rw [ih fun x hx => h x (List.mem_cons_of_mem b hx)]

theorem fromLEBytes_lt (l : List Nat) (h : ∀ b ∈ l, b < 256) :
    fromLEBytes l < 2 ^ (8 * l.length) := by
  induction l with
  | nil => simp [fromLEBytes]
  | cons b rest ih =>
    have hb : b < 256 := h b (List.mem_cons_self b rest)
    have hr : fromLEBytes rest < 2 ^ (8 * rest.length) :=
      ih fun x hx => h x (List.mem_cons_of_mem b hx)
    have hp : 2 ^ (8 * (rest.length + 1)) = 2 ^ (8 * rest.length) * 256 := by
      rw [show 8 * (rest.length + 1) = 8 * rest.length + 8 by ring, pow_add]
      norm_num
    simp only [fromLEBytes, List.length_cons, hp]
    omega

theorem swapBytes_involutive (k x : Nat) (h : x < 2 ^ (8 * k)) :
    swapBytes k (swapBytes k x) = x := by
  unfold swapBytes
  have hlt : ∀ b ∈ (toLEBytes k x).reverse, b < 256 := by
    intro b hb
    exact toLEBytes_lt k x b (List.mem_reverse.mp hb)
  have hlen : (toLEBytes k x).reverse.length = k := by
    rw [List.length_reverse, toLEBytes_length]
  have hrt := toLEBytes_fromLEBytes (toLEBytes k x).reverse hlt
  rw [hlen] at hrt
  rw [hrt, List.reverse_reverse]
  exact fromLEBytes_toLEBytes k x h

theorem swapBytes_lt (k x : Nat) : swapBytes k x < 2 ^ (8 * k) := by
  unfold swapBytes
  have hlt : ∀ b ∈ (toLEBytes k x).reverse, b < 256 := fun b hb =>
    toLEBytes_lt k x b (List.mem_reverse.mp hb)
  have := fromLEBytes_lt _ hlt
  rwa [List.length_reverse, toLEBytes_length] at this

/-- C9: byteswapping an array is an involution on well-formed contents; a
single byteswap keeps the element kind, the length and the export counter and
changes exactly the elements' byte order (each element's bytes are reversed),
preserving well-formedness. -/
theorem byteswap_involution (z : PyArray) (h : z.array.wf) :
    z.byteswapMethod.byteswapMethod = z ∧
    z.byteswapMethod.array.kind = z.array.kind ∧
    z.byteswapMethod.array.data.length = z.array.data.length ∧
    z.byteswapMethod.exports = z.exports ∧
    z.byteswapMethod.array.data = z.array.data.map (swapBytes z.array.kind.itemsize) ∧
    z.byteswapMethod.array.wf := by
  obtain ⟨⟨kind, data⟩, exports⟩ := z
  unfold ArrayContentType.wf at h
  simp only at h
  simp only [PyArray.byteswapMethod, ArrayContentType.byteswap]
  refine ⟨?_, by simp, by simp, by simp, by simp, ?_⟩
  · have hdata : (data.map (swapBytes kind.itemsize)).map (swapBytes kind.itemsize)
        = data := by
      rw [List.map_map]
      have hpt : ∀ a ∈ data,
          (swapBytes kind.itemsize ∘ swapBytes kind.itemsize) a = id a := by
        intro a ha
        simp only [Function.comp_apply, id_eq]
        exact swapBytes_involutive _ _ (h a ha)
      rw [List.map_congr_left hpt, List.map_id]
    simp only [hdata]
  · unfold ArrayContentType.wf
    intro x hx
    simp only [List.mem_map] at hx
    obtain ⟨b, _, hb⟩ := hx
    rw [← hb]
    exact swapBytes_lt _ b

/-- C9 witness: the two-byte element `0x0102` in a well-formed `'h'` array
swaps to `0x0201` and back. -/
theorem byteswap_involution_witness :
    (PyArray.mk ⟨.sh, [258]⟩ 0).array.wf ∧
    (PyArray.mk ⟨.sh, [258]⟩ 0).byteswapMethod = PyArray.mk ⟨.sh, [513]⟩ 0 ∧
    (PyArray.mk ⟨.sh, [258]⟩ 0).byteswapMethod.byteswapMethod = PyArray.mk ⟨.sh, [258]⟩ 0 := by
  refine ⟨?_, by decide, ?_⟩
  · intro x hx
    simp only [List.mem_singleton] at hx
    subst hx
    decide
  · exact (byteswap_involution (PyArray.mk ⟨.sh, [258]⟩ 0)
      (by intro x hx; simp only [List.mem_singleton] at hx; subst hx; decide)).1

/-- C10: `__copy__` (hence `__deepcopy__`) rebuilds the array from a clone of
its content through `From<ArrayContentType>`, so the copy has identical kind
and elements but export counter 0; even while the original is export-locked,
the copy immediately accepts a length-changing append while the original
still refuses it. -/
theorem copy_resets_exports (z : PyArray) :
    z.copy.array = z.array ∧
    z.copy.exports = 0 ∧
    (∀ v : Nat, z.copy.append (some v) =
      (.ok (), { array := { z.array with data := z.array.data ++ [v] }, exports := 0 })) ∧
    (z.exports ≠ 0 → ∀ x : Option Nat, z.append x = (.error .resizeConflict, z)) := by
  refine ⟨rfl, rfl, ?_, ?_⟩
  · intro v
    rw [show z.copy.append (some v) = z.copy.guarded fun w => w.push (some v) from rfl,
      guarded_open z.copy _ rfl]
    rfl
  · intro h x
    exact guarded_blocked z _ h

/-- C10 witness: with the original `[1, 2]` export-locked, its copy has
counter 0 and accepts an append while the original refuses it. -/
theorem copy_resets_exports_witness :
    ((PyArray.mk ⟨.sb, [1, 2]⟩ 1).exports ≠ 0) ∧
    (PyArray.mk ⟨.sb, [1, 2]⟩ 1).copy = PyArray.mk ⟨.sb, [1, 2]⟩ 0 ∧
    (PyArray.mk ⟨.sb, [1, 2]⟩ 1).copy.append (some 3) =
      (.ok (), PyArray.mk ⟨.sb, [1, 2, 3]⟩ 0) ∧
    (PyArray.mk ⟨.sb, [1, 2]⟩ 1).append (some 3) =
      (.error .resizeConflict, PyArray.mk ⟨.sb, [1, 2]⟩ 1) := by
  refine ⟨by decide, by decide, ?_, ?_⟩
  · have h := (copy_resets_exports (PyArray.mk ⟨.sb, [1, 2]⟩ 1)).2.2.1 3
    simpa using h
  · exact (copy_resets_exports (PyArray.mk ⟨.sb, [1, 2]⟩ 1)).2.2.2 (by decide) (some 3)

end Array1

namespace ClassExt

theorem setEntry_lookup_self {K V : Type} [DecidableEq K] (m : List (K × V)) (k : K) (v : V)
    (h : mapLookup m k = some v) : setEntry m k v = m := by
  induction m with
  | nil => simp [mapLookup] at h
  | cons p rest ih =>
    obtain ⟨k', v'⟩ := p
    by_cases hk : k' = k
    · subst hk
      rw [mapLookup, List.find?_cons_of_pos _ (by simp)] at h
      simp only [Option.map_some', Option.some.injEq] at h
      unfold setEntry
      rw [if_pos rfl, h]
    · rw [mapLookup, List.find?_cons_of_neg _ (by simp [hk])] at h
      unfold setEntry
      rw [if_neg hk, ih h]

/-- C8: in the getter/setter nursery, adding an accessor whose kind is already
populated for the same `(name, guard)` key fails with the duplicate-accessor
error and leaves the nursery unchanged; adding a setter or deleter carrying a
nonempty guard fails (before touching the map); `validate` succeeds exactly
when every entry has a getter — then it only sets the validated flag — and
otherwise fails with one error per getter-less entry, each reporting that
entry's setter or, failing that, its deleter. -/
theorem getset_nursery_contracts :
    (∀ (n : GetSetNursery) (name : String) (cfgs : List String) (kind : GetSetItemKind)
       (ident : String) (g s d : Option String),
      mapLookup n.map (name, cfgs) = some (g, s, d) →
      (match kind with
       | GetSetItemKind.Get => g
       | GetSetItemKind.Set => s
       | GetSetItemKind.Delete => d).isSome →
      (kind = .Get ∨ cfgs = []) →
      n.addItem name cfgs kind ident = (.error (.multipleAccessors name ident), n)) ∧
    (∀ (n : GetSetNursery) (name : String) (cfgs : List String) (kind : GetSetItemKind)
       (ident : String), kind ≠ .Get → cfgs ≠ [] →
      n.addItem name cfgs kind ident = (.error (.cfgOnNonGetter ident), n)) ∧
    (∀ n : GetSetNursery, (∀ e ∈ n.map, e.2.1.isSome) →
      n.validate = .ok { n with validated := true }) ∧
    (∀ n : GetSetNursery, (∃ e ∈ n.map, e.2.1 = none) →
      (∀ m, n.validate ≠ .ok m) ∧
      n.validate = .error ((n.map.filter fun e => e.2.1.isNone).map fun e =>
        (e.1.1, e.2.2.1 <|> e.2.2.2)) ∧
      ((n.map.filter fun e => e.2.1.isNone).map fun e =>
        (e.1.1, e.2.2.1 <|> e.2.2.2)) ≠ []) := by
  refine ⟨?_, ?_, ?_, ?_⟩
  · intro n name cfgs kind ident g s d hlk hslot hok
    unfold GetSetNursery.addItem
    rw [if_neg (by rcases hok with h | h <;> simp [h])]
    have hn' : setEntry n.map (name, cfgs)
        ((mapLookup n.map (name, cfgs)).getD (none, none, none)) = n.map := by
      rw [hlk]
      exact setEntry_lookup_self n.map (name, cfgs) (g, s, d) hlk
    rw [hlk]
    simp only [Option.getD_some]
    cases kind with
    | Get =>
      simp only at hslot
      obtain ⟨gv, hgv⟩ := Option.isSome_iff_exists.mp hslot
      rw [hgv]
      rw [hlk, Option.getD_some, hgv] at hn'
      simp [hn']
    | Set =>
      simp only at hslot
      obtain ⟨sv, hsv⟩ := Option.isSome_iff_exists.mp hslot
      rw [hsv]
      rw [hlk, Option.getD_some, hsv] at hn'
      simp [hn']
    | Delete =>
      simp only at hslot
      obtain ⟨dv, hdv⟩ := Option.isSome_iff_exists.mp hslot
      rw [hdv]
      rw [hlk, Option.getD_some, hdv] at hn'
      simp [hn']
  · intro n name cfgs kind ident hkind hcfgs
    unfold GetSetNursery.addItem
    rw [if_pos ⟨hkind, hcfgs⟩]
  · intro n hall
    unfold GetSetNursery.validate
    have hfil : (n.map.filter fun e => e.2.1.isNone) = [] := by
      rw [List.filter_eq_nil_iff]
      intro e he
      have := hall e he
      simp only [Option.isNone_iff_eq_none]
      rcases Option.isSome_iff_exists.mp this with ⟨v, hv⟩
      simp [hv]
    rw [hfil]
    rfl
  · intro n hex
    have hfil : (n.map.filter fun e => e.2.1.isNone) ≠ [] := by
      rw [Ne, List.filter_eq_nil_iff]
      push_neg
      obtain ⟨e, he, hnone⟩ := hex
      exact ⟨e, he, by simp [hnone]⟩
    have hne : ((n.map.filter fun e => e.2.1.isNone).map fun e =>
        (e.1.1, e.2.2.1 <|> e.2.2.2)) ≠ [] := by
      simpa using hfil
    have hval : n.validate = .error ((n.map.filter fun e => e.2.1.isNone).map fun e =>
        (e.1.1, e.2.2.1 <|> e.2.2.2)) := by
      unfold GetSetNursery.validate
      rcases hm : (n.map.filter fun e => e.2.1.isNone).map fun e =>
          (e.1.1, e.2.2.1 <|> e.2.2.2) with _ | ⟨a, rest⟩
      · exact absurd hm hne
      · rw [hm]
    refine ⟨?_, hval, hne⟩
    intro m hm
    rw [hval] at hm
    exact Except.noConfusion hm

/-- C8 witness: a nursery holding one complete entry for `"x"`; adding a
second getter for `"x"` fails with the duplicate-accessor error and leaves
the nursery unchanged, a guarded setter is rejected, and the nursery
validates; a nursery whose `"y"` entry has only a setter fails validation
reporting that setter. -/
theorem getset_nursery_contracts_witness :
    (mapLookup ([(("x", []), (some "get_x", some "set_x", none))] :
          List ((String × List String) × GetSetTriple)) ("x", []) =
        some ((some "get_x", some "set_x", none) : GetSetTriple) ∧
      (some "get_x" : Option String).isSome) ∧
    GetSetNursery.addItem ⟨[(("x", []), (some "get_x", some "set_x", none))], false⟩
        "x" [] .Get "get_x2" =
      (.error (.multipleAccessors "x" "get_x2"),
        ⟨[(("x", []), (some "get_x", some "set_x", none))], false⟩) ∧
    GetSetNursery.addItem ⟨[(("x", []), (some "get_x", some "set_x", none))], false⟩
        "x" ["cfg_a"] .Set "set_x2" =
      (.error (.cfgOnNonGetter "set_x2"),
        ⟨[(("x", []), (some "get_x", some "set_x", none))], false⟩) ∧
    GetSetNursery.validate ⟨[(("x", []), (some "get_x", some "set_x", none))], false⟩ =
      .ok ⟨[(("x", []), (some "get_x", some "set_x", none))], true⟩ ∧
    GetSetNursery.validate ⟨[(("y", []), (none, some "set_y", none))], false⟩ =
      .error [("y", some "set_y")] := by
  refine ⟨⟨by decide, by decide⟩, ?_, ?_, ?_, ?_⟩
  · exact getset_nursery_contracts.1 _ "x" [] .Get "get_x2"
      (some "get_x") (some "set_x") none (by decide) (by decide) (Or.inl rfl)
  · exact getset_nursery_contracts.2.1 _ "x" ["cfg_a"] .Set "set_x2"
      (by decide) (by decide)
  · exact getset_nursery_contracts.2.2.1 _ (by decide)
  · have h := (getset_nursery_contracts.2.2.2
      ⟨[(("y", []), (none, some "set_y", none))], false⟩
      ⟨(("y", []), (none, some "set_y", none)), by decide, rfl⟩).2.1
    simpa using h

end ClassExt

end RustPython
